import Mathlib

/-!
Shallow embedding of the geometry kernel of djpohly/charade (src/geometry.c)
over exact rational arithmetic, together with theorems settling the frozen
claims about it.

Modelling conventions:
* C `double` is modelled by `ℚ` (exact arithmetic, tolerance zero).
* C arrays are modelled by `List`.
* `qsort` with the x-only comparator `points_compare_x` is modelled by the
  stable `List.mergeSort` on the ordering `p.x ≤ q.x` (glibc's qsort is a
  stable merge sort; the C standard leaves the order of tie elements
  unspecified, and theorems about ties treat any x-sorted permutation).
* `sqrt` (used only through `vector_unit` in the oriented-bounding-box code)
  has no exact rational counterpart, so the functions that need it take the
  square-root function as an explicit parameter `sq : ℚ → ℚ`; concrete runs
  instantiate it with `ratSqrt`, which is exact on rational squares.
* The unbounded `while` loop of `points_oriented_bbox` is modelled with
  explicit fuel: `none` means the loop is still running after `fuel`
  guard checks, i.e. the loop body has executed `fuel` times without the
  guard ever becoming false.
-/

namespace Charade

/-- `struct point` from geometry.h: a pair of coordinates. -/
structure point where
  x : ℚ
  y : ℚ
deriving DecidableEq

/-- `struct circle` from geometry.h: center plus squared radius. -/
structure circle where
  c : point
  r2 : ℚ
deriving DecidableEq

/-- `vector_perp`: vector perpendicular to the given vector. -/
def vector_perp (p : point) : point := ⟨-p.y, p.x⟩

/-- `vector_dot`: dot product. -/
def vector_dot (p q : point) : ℚ := p.x * q.x + p.y * q.y

/-- `vector_cross`: two-dimensional "cross" product (dot-perp). -/
def vector_cross (p q : point) : ℚ := vector_dot (vector_perp p) q

/-- `vector_add`. -/
def vector_add (u v : point) : point := ⟨u.x + v.x, u.y + v.y⟩

/-- `vector_sub`. -/
def vector_sub (p q : point) : point := ⟨p.x - q.x, p.y - q.y⟩

/-- `vector_mul`: vector times scalar. -/
def vector_mul (v : point) (s : ℚ) : point := ⟨v.x * s, v.y * s⟩

/-- `vector_div`: vector divided by scalar. -/
def vector_div (v : point) (s : ℚ) : point := ⟨v.x / s, v.y / s⟩

/-- `vector_norm2`: squared magnitude. -/
def vector_norm2 (v : point) : ℚ := vector_dot v v

/-- `vector_unit`: unit vector, with fallback `(1,0)` for the zero vector.
The square root is passed in as `sq` (see the module comment). -/
def vector_unit (sq : ℚ → ℚ) (v : point) : point :=
  if v.x = 0 ∧ v.y = 0 then ⟨1, 0⟩ else vector_div v (sq (vector_norm2 v))

/-- `vector_intersect`: intersection of the line through `p` with direction
`r` and the line through `q` with direction `s`. -/
def vector_intersect (p r q s : point) : point :=
  let t := vector_cross (vector_sub q p) (vector_div s (vector_cross r s))
  vector_add p (vector_mul r t)

/-- `point_distance2`: squared distance between two points. -/
def point_distance2 (p q : point) : ℚ := vector_norm2 (vector_sub q p)

/-- `points_par_area`: signed area of the parallelogram defined by three
points in counterclockwise order. -/
def points_par_area (p q r : point) : ℚ :=
  vector_cross p q + vector_cross q r + vector_cross r p

/-- `circle_contains`: whether a circle contains the given point. -/
def circle_contains (c : circle) (p : point) : Prop :=
  point_distance2 c.c p ≤ c.r2

instance (c : circle) (p : point) : Decidable (circle_contains c p) :=
  decidable_of_iff (point_distance2 c.c p ≤ c.r2) Iff.rfl

/-- `circle_contains_all`: whether a circle contains all given points. -/
def circle_contains_all (c : circle) (pts : List point) : Prop :=
  ∀ p ∈ pts, circle_contains c p

instance (c : circle) (pts : List point) : Decidable (circle_contains_all c pts) :=
  decidable_of_iff (∀ p ∈ pts, circle_contains c p) Iff.rfl

/-- `circle_from_diameter`: the circle defined by a given diameter. -/
def circle_from_diameter (p q : point) : circle :=
  let c : point := ⟨(p.x + q.x) / 2, (p.y + q.y) / 2⟩
  ⟨c, point_distance2 c p⟩

/-- `circle_circumscribe`: the circumcircle of three points; the all-zero
circle when the three points are collinear (`d = 0`). -/
def circle_circumscribe (p q r : point) : circle :=
  let d := (vector_cross p q + vector_cross q r + vector_cross r p) * 2
  if d = 0 then ⟨⟨0, 0⟩, 0⟩ else
    let cx := (vector_dot p p * (q.y - r.y) + vector_dot q q * (r.y - p.y) +
      vector_dot r r * (p.y - q.y)) / d
    let cy := (vector_dot p p * (r.x - q.x) + vector_dot q q * (p.x - r.x) +
      vector_dot r r * (q.x - p.x)) / d
    ⟨⟨cx, cy⟩, point_distance2 p ⟨cx, cy⟩⟩

/-- One iteration of the candidate-tracking loop of `circle_2points` (the
loop body hoisted to a named function; `pq` is recomputed from `p` and `q`
each call, with the same value the C loop keeps in a local). -/
def circle_2points_step (p q : point) (tt : circle × circle) (r : point) : circle × circle :=
  let pq := vector_sub q p
  let temp := tt.1
  let temp2 := tt.2
  let pr := vector_sub r p
  let cross := vector_cross pq pr
  let cc := circle_circumscribe p q r
  if cc.r2 = 0 then (temp, temp2)
  else if 0 < cross ∧ (temp.r2 = 0 ∨
      vector_cross pq (vector_sub temp.c p) < vector_cross pq (vector_sub cc.c p)) then
    (cc, temp2)
  else if cross < 0 ∧ (temp2.r2 = 0 ∨
      vector_cross pq (vector_sub cc.c p) < vector_cross pq (vector_sub temp2.c p)) then
    (temp, cc)
  else (temp, temp2)

/-- The candidate-tracking loop of `circle_2points`: starting from
`temp = {diameter circle center, r2 = 0}` and `temp2 = {uninitialised, r2 = 0}`
(the uninitialised center is modelled as `(0,0)`; it is never read while
`r2 = 0` and never escapes), fold over the processed points keeping the two
per-side circumcircle candidates exactly as the C loop does. -/
def circle_2points_scan (pre : List point) (p q : point) : circle × circle :=
  pre.foldl (circle_2points_step p q)
    ({ circle_from_diameter p q with r2 := 0 }, ⟨⟨0, 0⟩, 0⟩)

/-- `circle_2points`: smallest-circle search with two fixed boundary points
`p` and `q`; `pre` is the prefix `pts[0..n-1]` of already-processed points. -/
def circle_2points (pre : List point) (p q : point) : circle :=
  let temp0 := circle_from_diameter p q
  if circle_contains_all temp0 pre then temp0
  else
    let s := circle_2points_scan pre p q
    if s.2.r2 = 0 then s.1
    else if s.1.r2 = 0 then s.2
    else if s.1.r2 ≤ s.2.r2 then s.1
    else s.2

/-- The loop body of `circle_1point`, carrying the processed prefix
explicitly (the C code passes `pts` and the index `i`; `done` is
`pts[0..i-1]`). -/
def circle_1point_aux (p : point) : List point → List point → circle → circle
  | _, [], c => c
  | done, q :: rest, c =>
    let c' :=
      if circle_contains c q then c
      else if c.r2 = 0 then circle_from_diameter p q
      else circle_2points done p q
    circle_1point_aux p (done ++ [q]) rest c'

/-- `circle_1point`: smallest-circle search with one fixed boundary point
`p`, over the points `pts`. -/
def circle_1point (pts : List point) (p : point) : circle :=
  circle_1point_aux p [] pts ⟨p, 0⟩

/-- The incremental loop of `points_enclosing_center`, returning the full
internal circle (the C function returns only its center).  `done` is the
prefix of already-considered points. -/
def points_enclosing_aux : List point → List point → circle → circle
  | _, [], c => c
  | done, q :: rest, c =>
    let c' := if circle_contains c q then c else circle_1point done q
    points_enclosing_aux (done ++ [q]) rest c'

/-- The enclosing circle computed internally by `points_enclosing_center`.
The source asserts `n >= 1`; the empty case is modelled by a dummy value that
no theorem relies on. -/
def points_enclosing_circle (pts : List point) : circle :=
  match pts with
  | [] => ⟨⟨0, 0⟩, 0⟩
  | p :: rest => points_enclosing_aux [p] rest (circle_1point [p] p)

/-- `points_enclosing_center`: center of the smallest enclosing circle. -/
def points_enclosing_center (pts : List point) : point :=
  (points_enclosing_circle pts).c

/-- `points_compare_x`: the qsort comparator, ordering by x-coordinate only. -/
def points_compare_x (p q : point) : ℤ :=
  if p.x < q.x then -1
  else if q.x < p.x then 1
  else 0

/-- `left_turn`: strict left turn test. -/
def left_turn (p q r : point) : Prop := 0 < points_par_area p q r

instance (p q r : point) : Decidable (left_turn p q r) :=
  decidable_of_iff (0 < points_par_area p q r) Iff.rfl

/-- The inner `while` of the chain-building loops: with the chain kept in
reversed order (most recent point first), repeatedly drop the middle of the
last three points while they do not form a left turn. -/
def chain_prune : List point → List point
  | r :: q :: p :: rest =>
    if left_turn p q r then r :: q :: p :: rest
    else chain_prune (r :: p :: rest)
  | l => l

/-- One iteration of a chain-building `for` loop: append the next point,
then prune. -/
def chain_extend (acc : List point) (x : point) : List point :=
  chain_prune (x :: acc)

/-- The part of `points_convex_hull` that runs after sorting (for `n ≥ 2`):
build the lower and upper chains over the x-sorted point array and
concatenate them, dropping the upper chain's shared endpoints.  The
fallthrough arms are unreachable for inputs of length ≥ 2. -/
def hull_chains (xsorted : List point) : List point :=
  match xsorted with
  | x0 :: x1 :: xrest =>
    let llower := ((xrest.foldl chain_extend [x1, x0])).reverse
    match xsorted.reverse with
    | xn1 :: xn2 :: xrrest =>
      let lupper := ((xrrest.foldl chain_extend [xn2, xn1])).reverse
      llower ++ (lupper.drop 1).dropLast
    | _ => []
  | _ => []

/-- `points_convex_hull` on an exact list of points (the buffer content for
a non-negative `n`): returns the hull length and the hull vertices. -/
def points_convex_hull_core (pts : List point) : ℤ × List point :=
  match pts with
  | [] => (0, [])
  | [p] => (1, [p])
  | _ =>
    let xsorted := pts.mergeSort (fun a b => decide (a.x ≤ b.x))
    let hull := hull_chains xsorted
    ((hull.length : ℤ), hull)

/-- `points_convex_hull`: `n < 0` is rejected with return value `-1` and no
writes to the output buffer; otherwise the hull of the first `n` points is
computed. -/
def points_convex_hull (n : ℤ) (pts : List point) : ℤ × List point :=
  if n < 0 then (-1, [])
  else points_convex_hull_core (pts.take n.toNat)

/-- The min/max scan of `points_bbox_center` over the tail of the list,
starting from `min = max = pts[0]`. -/
def bbox_minmax (p : point) (rest : List point) : point × point :=
  rest.foldl (fun mm q =>
    (⟨if q.x < mm.1.x then q.x else mm.1.x, if q.y < mm.1.y then q.y else mm.1.y⟩,
     ⟨if mm.2.x < q.x then q.x else mm.2.x, if mm.2.y < q.y then q.y else mm.2.y⟩))
    (p, p)

/-- `points_bbox_center` on the exact list of points read (n ≥ 1 case). -/
def points_bbox_center_core (pts : List point) : point :=
  match pts with
  | [] => ⟨0, 0⟩
  | p :: rest =>
    let mm := bbox_minmax p rest
    ⟨(mm.1.x + mm.2.x) / 2, (mm.1.y + mm.2.y) / 2⟩

/-- `points_bbox_center`: center of the bounding box; `n < 1` returns the
default point `(0,0)` instead of signalling an error. -/
def points_bbox_center (n : ℤ) (pts : List point) : point :=
  if n < 1 then ⟨0, 0⟩
  else points_bbox_center_core (pts.take n.toNat)

/-- The initial tangent-point scan of `points_oriented_bbox`: for each hull
vertex, record it as the anchor of any caliper it is extreme for (bottom,
right, top, left).  The result models the `point[4]` array. -/
def obb_tangents (hull : List point) : List ℕ :=
  let n := hull.length
  (List.range n).foldl (fun pt i =>
    let last := (i + n - 1) % n
    let next := (i + 1) % n
    let hi := hull.getD i ⟨0, 0⟩
    let hl := hull.getD last ⟨0, 0⟩
    let hn := hull.getD next ⟨0, 0⟩
    let pt := if hi.y < hl.y ∧ hi.y ≤ hn.y then pt.set 0 i else pt
    let pt := if hl.x < hi.x ∧ hn.x ≤ hi.x then pt.set 1 i else pt
    let pt := if hl.y < hi.y ∧ hn.y ≤ hi.y then pt.set 2 i else pt
    let pt := if hi.x < hl.x ∧ hi.x ≤ hn.x then pt.set 3 i else pt
    pt) [0, 0, 0, 0]

/-- The mutable state of the rotating-calipers loop.  The anchor indices
are called `point[4]` in the source; the field is placed last so that the
name does not shadow the `point` type in the earlier field types. -/
structure OBBState where
  caliper : List point
  rect : List point
  min_area : ℚ
  point : List ℕ
deriving DecidableEq

/-- The argmax scan at the top of the calipers loop: the index of the
caliper with the maximum cosine (dot product) to its next hull edge,
starting from `max_cos = -2`, first strict maximum wins. -/
def obb_findcal (caliper hullcal : List point) (anchor : List ℕ) : ℕ :=
  ((List.range 4).foldl (fun best i =>
    let ct := vector_dot (caliper.getD i ⟨0, 0⟩) (hullcal.getD (anchor.getD i 0) ⟨0, 0⟩)
    if best.2 < ct then (i, ct) else best) ((0 : ℕ), (-2 : ℚ))).1

/-- One iteration of the rotating-calipers `while` loop body. -/
def obb_step (hull hullcal : List point) (st : OBBState) : OBBState :=
  let n := hull.length
  let cal := obb_findcal st.caliper hullcal st.point
  let caliper := st.caliper.set cal (hullcal.getD (st.point.getD cal 0) ⟨0, 0⟩)
  let anchor := st.point.set cal ((st.point.getD cal 0 + 1) % n)
  let caliper := [1, 2, 3].foldl (fun c i =>
    c.set ((cal + i) % 4) (vector_perp (c.getD ((cal + i - 1) % 4) ⟨0, 0⟩))) caliper
  let temp := (List.range 4).map (fun i =>
    let next := (i + 1) % 4
    vector_intersect (hull.getD (anchor.getD i 0) ⟨0, 0⟩) (caliper.getD i ⟨0, 0⟩)
      (hull.getD (anchor.getD next 0) ⟨0, 0⟩) (caliper.getD next ⟨0, 0⟩))
  let area := points_par_area (temp.getD 0 ⟨0, 0⟩) (temp.getD 1 ⟨0, 0⟩) (temp.getD 2 ⟨0, 0⟩)
  if area < st.min_area ∨ st.min_area < 0 then
    ⟨caliper, temp, area, anchor⟩
  else
    ⟨caliper, st.rect, st.min_area, anchor⟩

/-- The `while (caliper[0].x > 0)` loop with explicit fuel: `none` means the
guard was still true after `fuel` body executions. -/
def obb_loop (hull hullcal : List point) : ℕ → OBBState → Option OBBState
  | 0, _ => none
  | fuel + 1, st =>
    if 0 < (st.caliper.getD 0 ⟨0, 0⟩).x then
      obb_loop hull hullcal fuel (obb_step hull hullcal st)
    else some st

/-- `points_oriented_bbox`: minimum oriented bounding box of a hull given in
counterclockwise order; returns the 4 corners, or `none` if the calipers
loop is still running after `fuel` iterations. -/
def points_oriented_bbox (sq : ℚ → ℚ) (hull : List point) (fuel : ℕ) : Option (List point) :=
  match hull with
  | [h0, h1] => some [h0, h0, h1, h1]
  | _ =>
    let n := hull.length
    let hullcal := (List.range n).map (fun i =>
      vector_unit sq (vector_sub (hull.getD ((i + 1) % n) ⟨0, 0⟩) (hull.getD i ⟨0, 0⟩)))
    let st0 : OBBState :=
      ⟨[⟨1, 0⟩, ⟨0, 1⟩, ⟨-1, 0⟩, ⟨0, -1⟩], [⟨0, 0⟩, ⟨0, 0⟩, ⟨0, 0⟩, ⟨0, 0⟩], -1,
        obb_tangents hull⟩
    (obb_loop hull hullcal fuel st0).map OBBState.rect

/-- The last element of a list of points (default `(0,0)` for the empty
list); a structurally recursive replacement for `List.getLast`. -/
def last_point : List point → point
  | [] => ⟨0, 0⟩
  | [x] => x
  | _ :: x :: xs => last_point (x :: xs)

/-- The cyclic predecessor list: element `i` is `poly[(i-1) mod n]`. -/
def cycle_prev (l : List point) : List point :=
  match l with
  | [] => []
  | x :: xs => last_point (x :: xs) :: (x :: xs).dropLast

/-- `polygon_area`: signed shoelace area of a polygon. -/
def polygon_area (poly : List point) : ℚ :=
  (List.zipWith (fun pi pl => (pi.x + pl.x) * (pi.y - pl.y)) poly (cycle_prev poly)).sum / 2

/-! ## Specification-side definitions

These follow the wording of the specification rather than the C source, for
the refinement-style claims that compare the two. -/

/-- The shoelace formula exactly as the specification words it: half the sum
over cyclic vertex pairs of `(x_i + x_{i-1}) * (y_i - y_{i-1})`, with the
index `i - 1` taken modulo the vertex count. -/
def shoelace_formula (poly : List point) : ℚ :=
  (∑ i ∈ Finset.range poly.length,
    ((poly.getD i ⟨0, 0⟩).x + (poly.getD ((i + poly.length - 1) % poly.length) ⟨0, 0⟩).x) *
      ((poly.getD i ⟨0, 0⟩).y - (poly.getD ((i + poly.length - 1) % poly.length) ⟨0, 0⟩).y)) / 2

/-- Membership in the segment spanned by two points: the hull polygon of a
two-vertex hull. -/
def in_hull_of_two (a b s : point) : Prop :=
  ∃ t : ℚ, 0 ≤ t ∧ t ≤ 1 ∧ s = vector_add a (vector_mul (vector_sub b a) t)

/-- A list is sorted for the qsort comparator `points_compare_x` (every
earlier element compares `≤ 0` against every later one). -/
def sortedX (l : List point) : Prop :=
  l.Pairwise (fun a b => points_compare_x a b ≤ 0)

instance (l : List point) : Decidable (sortedX l) :=
  inferInstanceAs (Decidable (l.Pairwise _))

/-- The signed offset of a candidate center `z` across the directed line
`p → q` (`cross(pq, z - p)` in the source's terms); the quantity the
`circle_2points` candidate scan actually maximises/minimises per side. -/
def tau (p q z : point) : ℚ := vector_cross (vector_sub q p) (vector_sub z p)

end Charade

namespace Charade

/-! ## Helper lemmas -/

theorem sum_zipWith_eq_range (f : point → point → ℚ) :
    ∀ (l1 l2 : List point),
      (List.zipWith f l1 l2).sum =
        ∑ i ∈ Finset.range (min l1.length l2.length),
          f (l1.getD i ⟨0, 0⟩) (l2.getD i ⟨0, 0⟩) := by
  intro l1
  induction l1 with
  | nil => intro l2; simp
  | cons a t ih =>
    intro l2
    cases l2 with
    | nil => simp
    | cons b u =>
      simp only [List.zipWith_cons_cons, List.sum_cons, ih, List.length_cons,
        Nat.succ_min_succ]
      rw [Finset.sum_range_succ']
      simp [add_comm]

theorem cycle_prev_length (l : List point) : (cycle_prev l).length = l.length := by
  cases l with
  | nil => rfl
  | cons x xs => simp [cycle_prev]

theorem last_point_eq_getD :
    ∀ (x : point) (xs : List point),
      last_point (x :: xs) = (x :: xs).getD ((x :: xs).length - 1) ⟨0, 0⟩ := by
  intro x xs
  induction xs generalizing x with
  | nil => rfl
  | cons y ys ih => simpa [last_point] using ih y

theorem cycle_prev_getD (l : List point) (i : ℕ) (hi : i < l.length) :
    (cycle_prev l).getD i ⟨0, 0⟩ = l.getD ((i + l.length - 1) % l.length) ⟨0, 0⟩ := by
  cases l with
  | nil => simp at hi
  | cons x xs =>
    cases i with
    | zero =>
      have hn : (0 + (x :: xs).length - 1) % (x :: xs).length = (x :: xs).length - 1 := by
        simp [Nat.mod_eq_of_lt]
      rw [hn]
      simpa [cycle_prev] using last_point_eq_getD x xs
    | succ j =>
      have hj : j < (x :: xs).length - 1 := by
        simpa [Nat.lt_sub_iff_add_lt] using hi
      have hidx : (j + 1 + (x :: xs).length - 1) % (x :: xs).length = j := by
        have : j + 1 + (x :: xs).length - 1 = j + (x :: xs).length := by omega
        rw [this, Nat.add_mod_right, Nat.mod_eq_of_lt (by omega)]
      rw [hidx]
      have hdl : j < ((x :: xs).dropLast).length := by
        simpa [List.length_dropLast] using hj
      have hjl : j < (x :: xs).length := by omega
      rw [List.getD_eq_getElem _ _ (by simpa [cycle_prev] using Nat.succ_lt_succ hdl),
        List.getD_eq_getElem _ _ hjl]
      simp [cycle_prev, List.getElem_dropLast]

theorem polygon_area_eq_shoelace (poly : List point) :
    polygon_area poly = shoelace_formula poly := by
  unfold polygon_area shoelace_formula
  rw [sum_zipWith_eq_range]
  rw [cycle_prev_length, min_self]
  congr 1
  apply Finset.sum_congr rfl
  intro i hi
  rw [cycle_prev_getD poly i (Finset.mem_range.mp hi)]

/-! ## Claim theorems -/

/-- Claim C7: `polygon_area` computes the signed shoelace area — half the sum
over cyclic vertex pairs of `(x_i + x_{i-1}) * (y_i - y_{i-1})` — and in
particular the counter-clockwise unit square `(0,0),(1,0),(1,1),(0,1)` has
area `1` while its reverse ordering has area `-1`. -/
theorem charade_C7_polygon_area :
    (∀ poly : List point, polygon_area poly = shoelace_formula poly) ∧
    polygon_area [⟨0, 0⟩, ⟨1, 0⟩, ⟨1, 1⟩, ⟨0, 1⟩] = 1 ∧
    polygon_area [⟨0, 1⟩, ⟨1, 1⟩, ⟨1, 0⟩, ⟨0, 0⟩] = -1 := by
  refine ⟨polygon_area_eq_shoelace, ?_, ?_⟩ <;>
    norm_num [polygon_area, cycle_prev, last_point]

/-- Claim C9: a negative point count is rejected: `points_convex_hull`
returns `-1` and writes nothing into the output hull buffer. -/
theorem charade_C9_negative_count (n : ℤ) (pts : List point) (hn : n < 0) :
    points_convex_hull n pts = (-1, []) := by
  simp [points_convex_hull, hn]

/-- Witness for C9 at the concrete input `n = -1`. -/
theorem charade_C9_negative_count_witness :
    points_convex_hull (-1) [⟨3, 4⟩] = (-1, []) :=
  charade_C9_negative_count (-1) [⟨3, 4⟩] (by decide)

theorem bbox_fold_proj : ∀ (rest : List point) (mn mx : point),
    rest.foldl (fun mm q =>
      (⟨if q.x < mm.1.x then q.x else mm.1.x, if q.y < mm.1.y then q.y else mm.1.y⟩,
       ⟨if mm.2.x < q.x then q.x else mm.2.x, if mm.2.y < q.y then q.y else mm.2.y⟩))
      (mn, mx) =
    (⟨rest.foldl (fun m q => if q.x < m then q.x else m) mn.x,
      rest.foldl (fun m q => if q.y < m then q.y else m) mn.y⟩,
     ⟨rest.foldl (fun m q => if m < q.x then q.x else m) mx.x,
      rest.foldl (fun m q => if m < q.y then q.y else m) mx.y⟩) := by
  intro rest
  induction rest with
  | nil => intro mn mx; rfl
  | cons q t ih => intro mn mx; simpa using ih _ _

theorem foldl_min_spec (f : point → ℚ) : ∀ (l : List point) (m : ℚ),
    l.foldl (fun m q => if f q < m then f q else m) m ≤ m ∧
    (∀ a ∈ l, l.foldl (fun m q => if f q < m then f q else m) m ≤ f a) ∧
    (l.foldl (fun m q => if f q < m then f q else m) m = m ∨
      ∃ a ∈ l, l.foldl (fun m q => if f q < m then f q else m) m = f a) := by
  intro l
  induction l with
  | nil => intro m; simp
  | cons q t ih =>
    intro m
    obtain ⟨h1, h2, h3⟩ := ih (if f q < m then f q else m)
    simp only [List.foldl_cons]
    refine ⟨h1.trans (by split <;> simp_all <;> linarith), ?_, ?_⟩
    · intro a ha
      rcases List.mem_cons.mp ha with rfl | ha
      · exact h1.trans (by split <;> simp_all)
      · exact h2 a ha
    · rcases h3 with h | ⟨a, ha, he⟩
      · rw [h]
        split
        · exact Or.inr ⟨q, List.mem_cons_self .., rfl⟩
        · exact Or.inl rfl
      · exact Or.inr ⟨a, List.mem_cons_of_mem _ ha, he⟩

theorem foldl_max_spec (f : point → ℚ) : ∀ (l : List point) (m : ℚ),
    m ≤ l.foldl (fun m q => if m < f q then f q else m) m ∧
    (∀ a ∈ l, f a ≤ l.foldl (fun m q => if m < f q then f q else m) m) ∧
    (l.foldl (fun m q => if m < f q then f q else m) m = m ∨
      ∃ a ∈ l, l.foldl (fun m q => if m < f q then f q else m) m = f a) := by
  intro l
  induction l with
  | nil => intro m; simp
  | cons q t ih =>
    intro m
    obtain ⟨h1, h2, h3⟩ := ih (if m < f q then f q else m)
    simp only [List.foldl_cons]
    refine ⟨le_trans (by split <;> simp_all <;> linarith) h1, ?_, ?_⟩
    · intro a ha
      rcases List.mem_cons.mp ha with rfl | ha
      · exact le_trans (by split <;> simp_all) h1
      · exact h2 a ha
    · rcases h3 with h | ⟨a, ha, he⟩
      · rw [h]
        split
        · exact Or.inr ⟨q, List.mem_cons_self .., rfl⟩
        · exact Or.inl rfl
      · exact Or.inr ⟨a, List.mem_cons_of_mem _ ha, he⟩

/-- Claim C8: `points_bbox_center` never signals an error: for `n < 1` it
returns the default point `(0,0)`, and for `n ≥ 1` it returns the midpoint
of the axis-aligned min/max extents of the points read. -/
theorem charade_C8_bbox_center :
    (∀ (n : ℤ) (pts : List point), n < 1 → points_bbox_center n pts = ⟨0, 0⟩) ∧
    (∀ (n : ℤ) (pts : List point) (p : point) (rest : List point),
      1 ≤ n → pts.take n.toNat = p :: rest →
      ∃ mn mx : point,
        (∀ a ∈ p :: rest, mn.x ≤ a.x ∧ a.x ≤ mx.x ∧ mn.y ≤ a.y ∧ a.y ≤ mx.y) ∧
        (∃ a ∈ p :: rest, mn.x = a.x) ∧ (∃ a ∈ p :: rest, mx.x = a.x) ∧
        (∃ a ∈ p :: rest, mn.y = a.y) ∧ (∃ a ∈ p :: rest, mx.y = a.y) ∧
        points_bbox_center n pts = ⟨(mn.x + mx.x) / 2, (mn.y + mx.y) / 2⟩) := by
  constructor
  · intro n pts hn
    simp [points_bbox_center, hn]
  · intro n pts p rest hn htake
    have hn' : ¬ n < 1 := by omega
    have hfold := bbox_fold_proj rest p p
    obtain ⟨ax1, ax2, ax3⟩ := foldl_min_spec point.x rest p.x
    obtain ⟨ay1, ay2, ay3⟩ := foldl_min_spec point.y rest p.y
    obtain ⟨bx1, bx2, bx3⟩ := foldl_max_spec point.x rest p.x
    obtain ⟨by1, by2, by3⟩ := foldl_max_spec point.y rest p.y
    refine ⟨(bbox_minmax p rest).1, (bbox_minmax p rest).2, ?_, ?_, ?_, ?_, ?_, ?_⟩
    · intro a ha
      rcases List.mem_cons.mp ha with rfl | ha
      · rw [bbox_minmax, hfold]
        exact ⟨ax1, bx1, ay1, by1⟩
      · rw [bbox_minmax, hfold]
        exact ⟨ax2 a ha, bx2 a ha, ay2 a ha, by2 a ha⟩
    · rw [bbox_minmax, hfold]
      rcases ax3 with h | ⟨a, ha, he⟩
      · exact ⟨p, List.mem_cons_self .., h⟩
      · exact ⟨a, List.mem_cons_of_mem _ ha, he⟩
    · rw [bbox_minmax, hfold]
      rcases bx3 with h | ⟨a, ha, he⟩
      · exact ⟨p, List.mem_cons_self .., h⟩
      · exact ⟨a, List.mem_cons_of_mem _ ha, he⟩
    · rw [bbox_minmax, hfold]
      rcases ay3 with h | ⟨a, ha, he⟩
      · exact ⟨p, List.mem_cons_self .., h⟩
      · exact ⟨a, List.mem_cons_of_mem _ ha, he⟩
    · rw [bbox_minmax, hfold]
      rcases by3 with h | ⟨a, ha, he⟩
      · exact ⟨p, List.mem_cons_self .., h⟩
      · exact ⟨a, List.mem_cons_of_mem _ ha, he⟩
    · rw [points_bbox_center, if_neg hn', htake]
      rfl

/-- Witness for C8: a singleton point set gets its own point back, and an
empty read (`n = 0`) gets the default. -/
theorem charade_C8_bbox_center_witness :
    points_bbox_center 1 [⟨2, 3⟩] = ⟨2, 3⟩ ∧ points_bbox_center 0 [⟨2, 3⟩] = ⟨0, 0⟩ := by
  constructor
  · obtain ⟨mn, mx, _, hx1, hx2, hy1, hy2, he⟩ :=
      charade_C8_bbox_center.2 1 [⟨2, 3⟩] ⟨2, 3⟩ [] (by norm_num) (by norm_num)
    simp only [List.mem_singleton] at hx1 hx2 hy1 hy2
    obtain ⟨a1, rfl, h1⟩ := hx1
    obtain ⟨a2, rfl, h2⟩ := hx2
    obtain ⟨a3, rfl, h3⟩ := hy1
    obtain ⟨a4, rfl, h4⟩ := hy2
    rw [he, h1, h2, h3, h4]
    norm_num
  · exact charade_C8_bbox_center.1 0 [⟨2, 3⟩] (by norm_num)

theorem left_turn_self_false (p : point) : ¬ left_turn p p p := by
  simp only [left_turn, points_par_area, vector_cross, vector_dot, vector_perp]
  intro h
  nlinarith [h]

theorem chain_prune_pair (a b : point) : chain_prune [a, b] = [a, b] := by
  rw [chain_prune]
  intro r q p rest h
  simp at h

theorem chain_extend_dup (p : point) : chain_extend [p, p] p = [p, p] := by
  rw [chain_extend, chain_prune, if_neg (left_turn_self_false p), chain_prune]
  intro r q p' rest h
  simp at h

theorem fold_chain_replicate (p : point) :
    ∀ k, (List.replicate k p).foldl chain_extend [p, p] = [p, p] := by
  intro k
  induction k with
  | zero => rfl
  | succ j ih => simpa [List.replicate_succ, chain_extend_dup] using ih

/-- Claim C10: with `n ≥ 2` copies of the same point `p`, the convex hull
code returns a hull of length exactly `2` whose two vertices are both `p`:
coincident duplicate vertices are kept rather than collapsed. -/
theorem charade_C10_duplicate_points (p : point) (n : ℕ) (hn : 2 ≤ n) :
    points_convex_hull_core (List.replicate n p) = (2, [p, p]) := by
  obtain ⟨k, rfl⟩ : ∃ k, n = k + 2 := ⟨n - 2, by omega⟩
  have hrep : List.replicate (k + 2) p = p :: p :: List.replicate k p := by
    simp [List.replicate_succ]
  have hsort : (List.replicate (k + 2) p).mergeSort (fun a b => decide (a.x ≤ b.x)) =
      List.replicate (k + 2) p := by
    apply List.eq_replicate_iff.mpr
    constructor
    · exact (List.mergeSort_perm _ _).length_eq.trans (by simp)
    · intro b hb
      have := (List.mergeSort_perm (List.replicate (k + 2) p)
        (fun a b => decide (a.x ≤ b.x))).mem_iff.mp hb
      exact List.eq_of_mem_replicate this
  have hchains : hull_chains (List.replicate (k + 2) p) = [p, p] := by
    rw [hrep]
    rw [hull_chains]
    have hrev : (p :: p :: List.replicate k p).reverse = p :: p :: List.replicate k p := by
      rw [← hrep, List.reverse_replicate]
    simp only [hrev]
    rw [fold_chain_replicate]
    rfl
  rw [hrep] at hsort hchains ⊢
  rw [points_convex_hull_core]
  · rw [hsort, hchains]; rfl
  · intro h; simp at h
  · intro p' h; simp at h

/-- Witness for C10 at `p = (1,2)`, `n = 2`. -/
theorem charade_C10_duplicate_points_witness :
    points_convex_hull_core (List.replicate 2 ⟨1, 2⟩) = (2, [⟨1, 2⟩, ⟨1, 2⟩]) :=
  charade_C10_duplicate_points ⟨1, 2⟩ 2 (by norm_num)

/-- Claim C2 (failing input): on the vertical collinear input
`(0,0), (0,2), (0,1)` — already x-sorted, so the tie order among the equal
x-coordinates is exactly what `qsort` keeps — the hull code returns the
two-vertex hull `[(0,0), (0,1)]`, and the input point `(0,2)` lies strictly
outside that hull segment.  This contradicts the hull-containment part of
the claim: sorting by x alone breaks the monotone-chain scan when distinct
points share an x-coordinate. -/
theorem charade_C2_hull_drops_point :
    points_convex_hull 3 [⟨0, 0⟩, ⟨0, 2⟩, ⟨0, 1⟩] = (2, [⟨0, 0⟩, ⟨0, 1⟩]) ∧
    (⟨0, 2⟩ : point) ∈ [(⟨0, 0⟩ : point), ⟨0, 2⟩, ⟨0, 1⟩] ∧
    ¬ in_hull_of_two ⟨0, 0⟩ ⟨0, 1⟩ ⟨0, 2⟩ := by
  refine ⟨?_, by simp, ?_⟩
  · have h : List.take (3 : ℤ).toNat [(⟨0, 0⟩ : point), ⟨0, 2⟩, ⟨0, 1⟩] =
        [⟨0, 0⟩, ⟨0, 2⟩, ⟨0, 1⟩] := rfl
    rw [points_convex_hull, if_neg (by norm_num), h]
    norm_num [points_convex_hull_core, hull_chains, List.mergeSort, List.merge,
      chain_extend, chain_prune, chain_prune_pair, left_turn, points_par_area,
      vector_cross, vector_dot, vector_perp]
  · rintro ⟨t, ht0, ht1, he⟩
    simp only [vector_add, vector_mul, vector_sub, point.mk.injEq] at he
    obtain ⟨-, hy⟩ := he
    norm_num at hy
    linarith

theorem points_compare_x_le_iff (p q : point) :
    points_compare_x p q ≤ 0 ↔ p.x ≤ q.x := by
  unfold points_compare_x
  split_ifs with h1 h2 <;> constructor <;> intro h <;>
    first
    | linarith
    | norm_num at h ⊢

/-- Two lists that sort the same point multiset for the x-only comparator
agree whenever the x-coordinates are pairwise distinct. -/
theorem sortedX_unique : ∀ l1 l2 : List point, l1.Perm l2 → sortedX l1 → sortedX l2 →
    l1.Pairwise (fun a b => a.x ≠ b.x) → l1 = l2 := by
  intro l1
  induction l1 with
  | nil =>
    intro l2 hp _ _ _
    exact (hp.symm.eq_nil).symm
  | cons a t ih =>
    intro l2 hp hs1 hs2 hd
    cases l2 with
    | nil => exact absurd hp.eq_nil (by simp)
    | cons b u =>
      have hab : a = b := by
        by_contra hne
        have hain : a ∈ b :: u := hp.mem_iff.mp (List.mem_cons_self ..)
        have hbin : b ∈ a :: t := hp.mem_iff.mpr (List.mem_cons_self ..)
        have hbt : b ∈ t := by
          rcases List.mem_cons.mp hbin with h | h
          · exact absurd h.symm hne
          · exact h
        have hau : a ∈ u := by
          rcases List.mem_cons.mp hain with h | h
          · exact absurd h hne
          · exact h
        have h1 : a.x ≤ b.x :=
          (points_compare_x_le_iff a b).mp ((List.pairwise_cons.mp hs1).1 b hbt)
        have h2 : b.x ≤ a.x :=
          (points_compare_x_le_iff b a).mp ((List.pairwise_cons.mp hs2).1 a hau)
        exact (List.pairwise_cons.mp hd).1 b hbt (le_antisymm h1 h2)
      subst hab
      rw [ih u hp.cons_inv (List.pairwise_cons.mp hs1).2 (List.pairwise_cons.mp hs2).2
        (List.pairwise_cons.mp hd).2]

/-- Claim C4 (counterexample): the qsort comparator does not break ties on
x — it returns `0` both ways on the distinct points `(0,0)` and `(0,1)` —
and the sorted sequence is genuinely not unique: two different x-sorted
permutations of the vertical triple produce different hulls. -/
theorem charade_C4_sort_not_total :
    points_compare_x ⟨0, 0⟩ ⟨0, 1⟩ = 0 ∧ points_compare_x ⟨0, 1⟩ ⟨0, 0⟩ = 0 ∧
    (⟨0, 0⟩ : point) ≠ ⟨0, 1⟩ ∧
    [(⟨0, 0⟩ : point), ⟨0, 1⟩, ⟨0, 2⟩].Perm [⟨0, 0⟩, ⟨0, 2⟩, ⟨0, 1⟩] ∧
    sortedX [(⟨0, 0⟩ : point), ⟨0, 1⟩, ⟨0, 2⟩] ∧
    sortedX [(⟨0, 0⟩ : point), ⟨0, 2⟩, ⟨0, 1⟩] ∧
    hull_chains [(⟨0, 0⟩ : point), ⟨0, 1⟩, ⟨0, 2⟩] ≠
      hull_chains [(⟨0, 0⟩ : point), ⟨0, 2⟩, ⟨0, 1⟩] := by
  refine ⟨by norm_num [points_compare_x], by norm_num [points_compare_x],
    by simp [point.mk.injEq], List.Perm.cons _ (List.Perm.swap _ _ _),
    by norm_num [sortedX, points_compare_x], by norm_num [sortedX, points_compare_x], ?_⟩
  have h1 : hull_chains [(⟨0, 0⟩ : point), ⟨0, 1⟩, ⟨0, 2⟩] = [⟨0, 0⟩, ⟨0, 2⟩] := by
    norm_num [hull_chains, chain_extend, chain_prune, chain_prune_pair, left_turn,
      points_par_area, vector_cross, vector_dot, vector_perp]
  have h2 : hull_chains [(⟨0, 0⟩ : point), ⟨0, 2⟩, ⟨0, 1⟩] = [⟨0, 0⟩, ⟨0, 1⟩] := by
    norm_num [hull_chains, chain_extend, chain_prune, chain_prune_pair, left_turn,
      points_par_area, vector_cross, vector_dot, vector_perp]
  rw [h1, h2]
  simp [point.mk.injEq]

/-- Claim C4 (amended): the hull construction sorts by x-coordinate only —
the comparator returns `0` exactly on equal x, `-1`/`1` exactly on
strictly smaller/greater x, so ties on x are left unbroken — and the sorted
sequence (hence the hull) is uniquely determined only for inputs whose
x-coordinates are pairwise distinct; with equal x-coordinates the tie order
is whatever the sort implementation produces. -/
theorem charade_C4_sort_amended :
    (∀ p q : point, (points_compare_x p q = 0 ↔ p.x = q.x) ∧
      (points_compare_x p q = -1 ↔ p.x < q.x) ∧ (points_compare_x p q = 1 ↔ q.x < p.x)) ∧
    (∀ pts l1 l2 : List point, l1.Perm pts → l2.Perm pts → sortedX l1 → sortedX l2 →
      pts.Pairwise (fun a b => a.x ≠ b.x) → l1 = l2) := by
  constructor
  · intro p q
    unfold points_compare_x
    refine ⟨?_, ?_, ?_⟩ <;> split_ifs with h1 h2 <;> constructor <;> intro h <;>
      first
      | linarith
      | norm_num at h ⊢
  · intro pts l1 l2 h1 h2 hs1 hs2 hd
    exact sortedX_unique l1 l2 (h1.trans h2.symm) hs1 hs2
      ((h1.pairwise_iff (fun h => Ne.symm h)).mpr hd)

/-- Witness for the amended C4 at concrete inputs. -/
theorem charade_C4_sort_amended_witness :
    points_compare_x ⟨0, 0⟩ ⟨1, 0⟩ = -1 ∧
    [(⟨0, 0⟩ : point), ⟨1, 0⟩] = [⟨0, 0⟩, ⟨1, 0⟩] := by
  refine ⟨((charade_C4_sort_amended.1 ⟨0, 0⟩ ⟨1, 0⟩).2.1).mpr (by norm_num),
    charade_C4_sort_amended.2 [⟨0, 0⟩, ⟨1, 0⟩] _ _ (List.Perm.refl _) (List.Perm.refl _)
      ?_ ?_ ?_⟩ <;>
    norm_num [sortedX, points_compare_x]

/-- What the `circle_2points` candidate scan guarantees about the pair of
kept candidates, relative to the processed points `done`:  each kept
candidate (when present) is a valid circumcircle of some processed point
strictly on its side of `p → q`, extremal for the signed offset `tau` of
its center — maximal on the positive side, minimal on the negative side. -/
def scanInv (p q : point) (done : List point) (tt : circle × circle) : Prop :=
  (tt.1.r2 = 0 → ∀ r ∈ done, 0 < vector_cross (vector_sub q p) (vector_sub r p) →
    (circle_circumscribe p q r).r2 = 0) ∧
  (tt.1.r2 ≠ 0 →
    (∃ r ∈ done, 0 < vector_cross (vector_sub q p) (vector_sub r p) ∧
      (circle_circumscribe p q r).r2 ≠ 0 ∧ tt.1 = circle_circumscribe p q r) ∧
    ∀ r ∈ done, 0 < vector_cross (vector_sub q p) (vector_sub r p) →
      (circle_circumscribe p q r).r2 ≠ 0 →
      tau p q (circle_circumscribe p q r).c ≤ tau p q tt.1.c) ∧
  (tt.2.r2 = 0 → ∀ r ∈ done, vector_cross (vector_sub q p) (vector_sub r p) < 0 →
    (circle_circumscribe p q r).r2 = 0) ∧
  (tt.2.r2 ≠ 0 →
    (∃ r ∈ done, vector_cross (vector_sub q p) (vector_sub r p) < 0 ∧
      (circle_circumscribe p q r).r2 ≠ 0 ∧ tt.2 = circle_circumscribe p q r) ∧
    ∀ r ∈ done, vector_cross (vector_sub q p) (vector_sub r p) < 0 →
      (circle_circumscribe p q r).r2 ≠ 0 →
      tau p q tt.2.c ≤ tau p q (circle_circumscribe p q r).c)

theorem scanInv_step (p q : point) (done : List point) (tt : circle × circle) (r : point)
    (h : scanInv p q done tt) :
    scanInv p q (done ++ [r]) (circle_2points_step p q tt r) := by
  obtain ⟨h10, h11, h20, h21⟩ := h
  have hmem : ∀ (P : point → Prop), (∀ a ∈ done, P a) → P r → ∀ a ∈ done ++ [r], P a := by
    intro P hd hr a ha
    rcases List.mem_append.mp ha with ha | ha
    · exact hd a ha
    · rw [List.mem_singleton.mp ha]; exact hr
  unfold circle_2points_step
  by_cases hcc : (circle_circumscribe p q r).r2 = 0
  · rw [if_pos hcc]
    refine ⟨?_, ?_, ?_, ?_⟩
    · intro hz
      exact hmem _ (h10 hz) (fun _ => hcc)
    · intro hz
      obtain ⟨⟨r', hr', hcr', hvr', he'⟩, hmax⟩ := h11 hz
      exact ⟨⟨r', List.mem_append_left _ hr', hcr', hvr', he'⟩,
        hmem _ (hmax) (fun _ hv => absurd hcc hv)⟩
    · intro hz
      exact hmem _ (h20 hz) (fun _ => hcc)
    · intro hz
      obtain ⟨⟨r', hr', hcr', hvr', he'⟩, hmin⟩ := h21 hz
      exact ⟨⟨r', List.mem_append_left _ hr', hcr', hvr', he'⟩,
        hmem _ (hmin) (fun _ hv => absurd hcc hv)⟩
  · rw [if_neg hcc]
    by_cases hpos : 0 < vector_cross (vector_sub q p) (vector_sub r p) ∧
        (tt.1.r2 = 0 ∨ vector_cross (vector_sub q p) (vector_sub tt.1.c p) <
          vector_cross (vector_sub q p) (vector_sub (circle_circumscribe p q r).c p))
    · rw [if_pos hpos]
      refine ⟨fun hz => absurd hz hcc, ?_, ?_, ?_⟩
      · intro _
        refine ⟨⟨r, List.mem_append_right _ (List.mem_singleton_self r), hpos.1, hcc, rfl⟩, ?_⟩
        refine hmem _ ?_ (fun _ _ => le_refl _)
        intro a ha hca hva
        by_cases hz : tt.1.r2 = 0
        · exact absurd (h10 hz a ha hca) hva
        · have hlt : tau p q tt.1.c < tau p q (circle_circumscribe p q r).c := by
            rcases hpos.2 with hz' | hlt'
            · exact absurd hz' hz
            · exact hlt'
          exact le_of_lt (lt_of_le_of_lt ((h11 hz).2 a ha hca hva) hlt)
      · intro hz
        refine hmem _ (h20 hz) (fun hv => absurd hpos.1 (asymm hv))
      · intro hz
        obtain ⟨⟨r', hr', hcr', hvr', he'⟩, hmin⟩ := h21 hz
        exact ⟨⟨r', List.mem_append_left _ hr', hcr', hvr', he'⟩,
          hmem _ hmin (fun hv => absurd hpos.1 (asymm hv))⟩
    · rw [if_neg hpos]
      by_cases hneg : vector_cross (vector_sub q p) (vector_sub r p) < 0 ∧
          (tt.2.r2 = 0 ∨ vector_cross (vector_sub q p)
            (vector_sub (circle_circumscribe p q r).c p) <
            vector_cross (vector_sub q p) (vector_sub tt.2.c p))
      · rw [if_pos hneg]
        refine ⟨?_, ?_, fun hz => absurd hz hcc, ?_⟩
        · intro hz
          exact hmem _ (h10 hz) (fun hv => absurd hneg.1 (asymm hv))
        · intro hz
          obtain ⟨⟨r', hr', hcr', hvr', he'⟩, hmax⟩ := h11 hz
          exact ⟨⟨r', List.mem_append_left _ hr', hcr', hvr', he'⟩,
            hmem _ hmax (fun hv => absurd hneg.1 (asymm hv))⟩
        · intro _
          refine ⟨⟨r, List.mem_append_right _ (List.mem_singleton_self r), hneg.1, hcc, rfl⟩, ?_⟩
          refine hmem _ ?_ (fun _ _ => le_refl _)
          intro a ha hca hva
          by_cases hz : tt.2.r2 = 0
          · exact absurd (h20 hz a ha hca) hva
          · have hlt : tau p q (circle_circumscribe p q r).c < tau p q tt.2.c := by
              rcases hneg.2 with hz' | hlt'
              · exact absurd hz' hz
              · exact hlt'
            exact le_of_lt (lt_of_lt_of_le hlt ((h21 hz).2 a ha hca hva))
      · rw [if_neg hneg]
        refine ⟨?_, ?_, ?_, ?_⟩
        · intro hz
          exact hmem _ (h10 hz) (fun hv => absurd ⟨hv, Or.inl hz⟩ hpos)
        · intro hz
          obtain ⟨⟨r', hr', hcr', hvr', he'⟩, hmax⟩ := h11 hz
          refine ⟨⟨r', List.mem_append_left _ hr', hcr', hvr', he'⟩,
            hmem _ hmax (fun hv _ => ?_)⟩
          by_contra hlt
          push_neg at hlt
          exact hpos ⟨hv, Or.inr hlt⟩
        · intro hz
          exact hmem _ (h20 hz) (fun hv => absurd ⟨hv, Or.inl hz⟩ hneg)
        · intro hz
          obtain ⟨⟨r', hr', hcr', hvr', he'⟩, hmin⟩ := h21 hz
          refine ⟨⟨r', List.mem_append_left _ hr', hcr', hvr', he'⟩,
            hmem _ hmin (fun hv _ => ?_)⟩
          by_contra hlt
          push_neg at hlt
          exact hneg ⟨hv, Or.inr hlt⟩

theorem scanInv_fold (p q : point) :
    ∀ (rest done : List point) (tt : circle × circle), scanInv p q done tt →
      scanInv p q (done ++ rest) (rest.foldl (circle_2points_step p q) tt) := by
  intro rest
  induction rest with
  | nil => intro done tt h; simpa using h
  | cons r rs ih =>
    intro done tt h
    have := ih (done ++ [r]) (circle_2points_step p q tt r) (scanInv_step p q done tt r h)
    simpa using this

/-- The invariant holds of the scan's result over the whole processed
prefix. -/
theorem circle_2points_scan_spec (pre : List point) (p q : point) :
    scanInv p q pre (circle_2points_scan pre p q) := by
  have h0 : scanInv p q []
      ({ circle_from_diameter p q with r2 := 0 }, (⟨⟨0, 0⟩, 0⟩ : circle)) := by
    refine ⟨fun _ r hr => absurd hr (List.not_mem_nil r), fun hz => absurd rfl hz,
      fun _ r hr => absurd hr (List.not_mem_nil r), fun hz => absurd rfl hz⟩
  simpa using scanInv_fold p q pre [] _ h0

/-- Claim C3 (counterexample): with processed points `(1,3)` and `(1,2)`,
both strictly on the positive-cross side of `p=(0,0) → q=(2,0)`, the kept
positive-side candidate — and the final result — is the circumcircle of
`(1,3)` with squared radius `25/9`, even though the circumcircle of the
processed point `(1,2)` is valid, has its center on the positive-cross side,
and has strictly smaller squared radius `25/16`: the kept candidate is not
the smallest-radius circle whose center lies on that side. -/
theorem charade_C3_side_selection_cx :
    (circle_2points_scan [⟨1, 3⟩, ⟨1, 2⟩] ⟨0, 0⟩ ⟨2, 0⟩).1 =
      circle_circumscribe ⟨0, 0⟩ ⟨2, 0⟩ ⟨1, 3⟩ ∧
    circle_2points [⟨1, 3⟩, ⟨1, 2⟩] ⟨0, 0⟩ ⟨2, 0⟩ =
      circle_circumscribe ⟨0, 0⟩ ⟨2, 0⟩ ⟨1, 3⟩ ∧
    circle_circumscribe ⟨0, 0⟩ ⟨2, 0⟩ ⟨1, 3⟩ = ⟨⟨1, 4/3⟩, 25/9⟩ ∧
    circle_circumscribe ⟨0, 0⟩ ⟨2, 0⟩ ⟨1, 2⟩ = ⟨⟨1, 3/4⟩, 25/16⟩ ∧
    0 < vector_cross (vector_sub ⟨2, 0⟩ ⟨0, 0⟩) (vector_sub ⟨1, 2⟩ ⟨0, 0⟩) ∧
    (circle_circumscribe ⟨0, 0⟩ ⟨2, 0⟩ ⟨1, 2⟩).r2 ≠ 0 ∧
    0 < vector_cross (vector_sub ⟨2, 0⟩ ⟨0, 0⟩)
      (vector_sub (circle_circumscribe ⟨0, 0⟩ ⟨2, 0⟩ ⟨1, 2⟩).c ⟨0, 0⟩) ∧
    (circle_circumscribe ⟨0, 0⟩ ⟨2, 0⟩ ⟨1, 2⟩).r2 <
      (circle_2points_scan [⟨1, 3⟩, ⟨1, 2⟩] ⟨0, 0⟩ ⟨2, 0⟩).1.r2 := by
  have hc1 : circle_circumscribe ⟨0, 0⟩ ⟨2, 0⟩ ⟨1, 3⟩ = ⟨⟨1, 4/3⟩, 25/9⟩ := by
    norm_num [circle_circumscribe, vector_cross, vector_dot, vector_perp, point_distance2,
      vector_norm2, vector_sub]
  have hc2 : circle_circumscribe ⟨0, 0⟩ ⟨2, 0⟩ ⟨1, 2⟩ = ⟨⟨1, 3/4⟩, 25/16⟩ := by
    norm_num [circle_circumscribe, vector_cross, vector_dot, vector_perp, point_distance2,
      vector_norm2, vector_sub]
  have hscan : (circle_2points_scan [⟨1, 3⟩, ⟨1, 2⟩] ⟨0, 0⟩ ⟨2, 0⟩).1 =
      circle_circumscribe ⟨0, 0⟩ ⟨2, 0⟩ ⟨1, 3⟩ := by
    norm_num [circle_2points_scan, circle_2points_step, circle_circumscribe,
      circle_from_diameter, vector_cross, vector_dot, vector_perp, point_distance2,
      vector_norm2, vector_sub]
  have hfull : circle_2points [⟨1, 3⟩, ⟨1, 2⟩] ⟨0, 0⟩ ⟨2, 0⟩ =
      circle_circumscribe ⟨0, 0⟩ ⟨2, 0⟩ ⟨1, 3⟩ := by
    norm_num [circle_2points, circle_2points_scan, circle_2points_step,
      circle_contains_all, circle_contains, circle_circumscribe, circle_from_diameter,
      vector_cross, vector_dot, vector_perp, point_distance2, vector_norm2, vector_sub]
  refine ⟨hscan, hfull, hc1, hc2, by norm_num [vector_cross, vector_dot, vector_perp,
    vector_sub], by rw [hc2]; norm_num, by rw [hc2]; norm_num [vector_cross, vector_dot,
    vector_perp, vector_sub], ?_⟩
  rw [hc2, hscan, hc1]
  norm_num

/-- Claim C3 (amended): in the `circle_2points` search, the candidate kept
for the positive-cross side of `p → q` is the valid circumcircle — of a
processed point lying strictly on the positive-cross side — whose center is
furthest in the positive-cross direction (maximal `cross(pq, center - p)`),
not the one of smallest radius; symmetrically the negative-side candidate
has minimal `cross(pq, center - p)`.  When both sides have a candidate the
smaller-radius one is returned, and when only one side has a candidate that
one is returned (after the diameter-circle fast path). -/
theorem charade_C3_side_selection_amended :
    (∀ (pre : List point) (p q : point), scanInv p q pre (circle_2points_scan pre p q)) ∧
    (∀ (pre : List point) (p q : point),
      circle_2points pre p q =
        if circle_contains_all (circle_from_diameter p q) pre then circle_from_diameter p q
        else if (circle_2points_scan pre p q).2.r2 = 0 then (circle_2points_scan pre p q).1
        else if (circle_2points_scan pre p q).1.r2 = 0 then (circle_2points_scan pre p q).2
        else if (circle_2points_scan pre p q).1.r2 ≤ (circle_2points_scan pre p q).2.r2 then
          (circle_2points_scan pre p q).1
        else (circle_2points_scan pre p q).2) :=
  ⟨fun pre p q => circle_2points_scan_spec pre p q, fun _ _ _ => rfl⟩

/-- The looping state of the single-vertex rotating-calipers run: after the
first iteration the state reaches this value and never changes again, while
the guard `caliper[0].x > 0` stays true. -/
def obb_single_state (p : point) : OBBState :=
  ⟨[⟨1, 0⟩, ⟨0, 1⟩, ⟨-1, 0⟩, ⟨0, -1⟩], [p, p, p, p], 0, [0, 0, 0, 0]⟩

theorem obb_findcal_single :
    obb_findcal [⟨1, 0⟩, ⟨0, 1⟩, ⟨-1, 0⟩, ⟨0, -1⟩] [⟨1, 0⟩] [0, 0, 0, 0] = 0 := by
  norm_num [obb_findcal, List.range_succ, vector_dot]

theorem vector_cross_zero_left (w : point) : vector_cross ⟨0, 0⟩ w = 0 := by
  simp [vector_cross, vector_dot, vector_perp]

theorem obb_step_single_from_start (p : point) :
    obb_step [p] [⟨1, 0⟩]
      ⟨[⟨1, 0⟩, ⟨0, 1⟩, ⟨-1, 0⟩, ⟨0, -1⟩], [⟨0, 0⟩, ⟨0, 0⟩, ⟨0, 0⟩, ⟨0, 0⟩], -1,
        [0, 0, 0, 0]⟩ = obb_single_state p := by
  have hself : vector_sub p p = (⟨0, 0⟩ : point) := by simp [vector_sub]
  have hcross : vector_cross p p = 0 := by
    simp [vector_cross, vector_dot, vector_perp]; ring
  unfold obb_step obb_single_state
  rw [obb_findcal_single]
  norm_num [List.range_succ, vector_intersect, hself, vector_cross_zero_left, vector_mul,
    vector_add, vector_perp, points_par_area, hcross]

theorem obb_step_single_fix (p : point) :
    obb_step [p] [⟨1, 0⟩] (obb_single_state p) = obb_single_state p := by
  have hself : vector_sub p p = (⟨0, 0⟩ : point) := by simp [vector_sub]
  have hcross : vector_cross p p = 0 := by
    simp [vector_cross, vector_dot, vector_perp]; ring
  unfold obb_step obb_single_state
  rw [show obb_findcal [⟨1, 0⟩, ⟨0, 1⟩, ⟨-1, 0⟩, ⟨0, -1⟩] [⟨1, 0⟩] [0, 0, 0, 0] = 0 from
    obb_findcal_single]
  norm_num [List.range_succ, vector_intersect, hself, vector_cross_zero_left, vector_mul,
    vector_add, vector_perp, points_par_area, hcross]

theorem obb_loop_single_none (p : point) :
    ∀ fuel, obb_loop [p] [⟨1, 0⟩] fuel (obb_single_state p) = none := by
  intro fuel
  induction fuel with
  | zero => rfl
  | succ f ih =>
    rw [obb_loop, if_pos (by norm_num [obb_single_state]), obb_step_single_fix]
    exact ih

/-- Claim C5 (failing input): on a one-vertex hull the rotating-calipers
loop never terminates — the single "edge" has the fallback unit direction
`(1,0)`, so `caliper[0]` is re-snapped to `(1,0)` forever and the guard
`caliper[0].x > 0` never becomes false.  In the fuel-indexed model no amount
of fuel makes `points_oriented_bbox` return, contradicting the claim that it
returns a degenerate rectangle. -/
theorem charade_C5_single_vertex_loops (sq : ℚ → ℚ) (p : point) (fuel : ℕ) :
    points_oriented_bbox sq [p] fuel = none := by
  have hcal : (List.range ([p].length)).map (fun i =>
      vector_unit sq (vector_sub ([p].getD ((i + 1) % [p].length) ⟨0, 0⟩)
        ([p].getD i ⟨0, 0⟩))) = [⟨1, 0⟩] := by
    simp [List.range_succ, vector_unit, vector_sub]
  have htan : obb_tangents [p] = [0, 0, 0, 0] := by
    simp [obb_tangents, List.range_succ]
  show (obb_loop [p] _ fuel _).map OBBState.rect = none
  rw [hcal, htan]
  cases fuel with
  | zero => rfl
  | succ f =>
    rw [obb_loop, if_pos (by norm_num), obb_step_single_from_start, obb_loop_single_none]
    rfl

/-- The counter-clockwise axis-aligned unit square, the specification's own
test hull. -/
def square_hull : List point := [⟨0, 0⟩, ⟨1, 0⟩, ⟨1, 1⟩, ⟨0, 1⟩]

/-- The unit edge directions of `square_hull` (also the initial caliper
directions, which for this hull coincide). -/
def square_cal : List point := [⟨1, 0⟩, ⟨0, 1⟩, ⟨-1, 0⟩, ⟨0, -1⟩]

/-- A square-root function that is exact on the only magnitude the
unit-square run ever takes a square root of: every edge of `square_hull`
has squared length exactly `1`, and `sqrt 1 = 1` exactly, also in floating
point. -/
def sqrt1 : ℚ → ℚ := fun _ => 1

theorem list4_get_0 {α : Type} (a b c d : α) : ([a, b, c, d])[0] = a := rfl

theorem list4_get_1 {α : Type} (a b c d : α) : ([a, b, c, d])[1] = b := rfl

theorem list4_get_2 {α : Type} (a b c d : α) : ([a, b, c, d])[2] = c := rfl

theorem list4_get_3 {α : Type} (a b c d : α) : ([a, b, c, d])[3] = d := rfl

theorem list4_getD_0 {α : Type} (a b c d x : α) : List.getD [a, b, c, d] 0 x = a := rfl

theorem list4_getD_1 {α : Type} (a b c d x : α) : List.getD [a, b, c, d] 1 x = b := rfl

theorem list4_getD_2 {α : Type} (a b c d x : α) : List.getD [a, b, c, d] 2 x = c := rfl

theorem list4_getD_3 {α : Type} (a b c d x : α) : List.getD [a, b, c, d] 3 x = d := rfl

theorem list4_set_0 {α : Type} (a b c d x : α) : List.set [a, b, c, d] 0 x = [x, b, c, d] := rfl

theorem list4_set_1 {α : Type} (a b c d x : α) : List.set [a, b, c, d] 1 x = [a, x, c, d] := rfl

theorem list4_set_2 {α : Type} (a b c d x : α) : List.set [a, b, c, d] 2 x = [a, b, x, d] := rfl

theorem list4_set_3 {α : Type} (a b c d x : α) : List.set [a, b, c, d] 3 x = [a, b, c, x] := rfl

theorem square_tangents : obb_tangents square_hull = [0, 1, 2, 3] := by
  norm_num [obb_tangents, square_hull, List.range_succ]

theorem square_step1 : obb_step square_hull square_cal
    ⟨square_cal, [⟨0, 0⟩, ⟨0, 0⟩, ⟨0, 0⟩, ⟨0, 0⟩], -1, [0, 1, 2, 3]⟩ =
    ⟨square_cal, [⟨1, 0⟩, ⟨1, 1⟩, ⟨0, 1⟩, ⟨0, 0⟩], 1, [1, 1, 2, 3]⟩ := by
  norm_num [obb_step, obb_findcal, square_hull, square_cal, List.range_succ,
    list4_get_0, list4_get_1, list4_get_2, list4_get_3, list4_getD_0, list4_getD_1,
    list4_getD_2, list4_getD_3, list4_set_0, list4_set_1, list4_set_2, list4_set_3,
    vector_intersect, vector_perp, vector_dot, vector_cross,
    vector_add, vector_sub, vector_mul, vector_div, points_par_area]

theorem square_step2 : obb_step square_hull square_cal
    ⟨square_cal, [⟨1, 0⟩, ⟨1, 1⟩, ⟨0, 1⟩, ⟨0, 0⟩], 1, [1, 1, 2, 3]⟩ =
    ⟨square_cal, [⟨1, 0⟩, ⟨1, 1⟩, ⟨0, 1⟩, ⟨0, 0⟩], 1, [1, 2, 2, 3]⟩ := by
  norm_num [obb_step, obb_findcal, square_hull, square_cal, List.range_succ,
    list4_get_0, list4_get_1, list4_get_2, list4_get_3, list4_getD_0, list4_getD_1,
    list4_getD_2, list4_getD_3, list4_set_0, list4_set_1, list4_set_2, list4_set_3,
    vector_intersect, vector_perp, vector_dot, vector_cross,
    vector_add, vector_sub, vector_mul, vector_div, points_par_area]

theorem square_step3 : obb_step square_hull square_cal
    ⟨square_cal, [⟨1, 0⟩, ⟨1, 1⟩, ⟨0, 1⟩, ⟨0, 0⟩], 1, [1, 2, 2, 3]⟩ =
    ⟨square_cal, [⟨1, 0⟩, ⟨1, 1⟩, ⟨0, 1⟩, ⟨0, 0⟩], 1, [1, 2, 3, 3]⟩ := by
  norm_num [obb_step, obb_findcal, square_hull, square_cal, List.range_succ,
    list4_get_0, list4_get_1, list4_get_2, list4_get_3, list4_getD_0, list4_getD_1,
    list4_getD_2, list4_getD_3, list4_set_0, list4_set_1, list4_set_2, list4_set_3,
    vector_intersect, vector_perp, vector_dot, vector_cross,
    vector_add, vector_sub, vector_mul, vector_div, points_par_area]

theorem square_step4 : obb_step square_hull square_cal
    ⟨square_cal, [⟨1, 0⟩, ⟨1, 1⟩, ⟨0, 1⟩, ⟨0, 0⟩], 1, [1, 2, 3, 3]⟩ =
    ⟨square_cal, [⟨1, 0⟩, ⟨1, 1⟩, ⟨0, 1⟩, ⟨0, 0⟩], 1, [1, 2, 3, 0]⟩ := by
  norm_num [obb_step, obb_findcal, square_hull, square_cal, List.range_succ,
    list4_get_0, list4_get_1, list4_get_2, list4_get_3, list4_getD_0, list4_getD_1,
    list4_getD_2, list4_getD_3, list4_set_0, list4_set_1, list4_set_2, list4_set_3,
    vector_intersect, vector_perp, vector_dot, vector_cross,
    vector_add, vector_sub, vector_mul, vector_div, points_par_area]

theorem square_step5 : obb_step square_hull square_cal
    ⟨square_cal, [⟨1, 0⟩, ⟨1, 1⟩, ⟨0, 1⟩, ⟨0, 0⟩], 1, [1, 2, 3, 0]⟩ =
    ⟨[⟨0, 1⟩, ⟨-1, 0⟩, ⟨0, -1⟩, ⟨1, 0⟩], [⟨1, 0⟩, ⟨1, 1⟩, ⟨0, 1⟩, ⟨0, 0⟩], 1,
      [2, 2, 3, 0]⟩ := by
  norm_num [obb_step, obb_findcal, square_hull, square_cal, List.range_succ,
    list4_get_0, list4_get_1, list4_get_2, list4_get_3, list4_getD_0, list4_getD_1,
    list4_getD_2, list4_getD_3, list4_set_0, list4_set_1, list4_set_2, list4_set_3,
    vector_intersect, vector_perp, vector_dot, vector_cross,
    vector_add, vector_sub, vector_mul, vector_div, points_par_area]

theorem square_loop_five : obb_loop square_hull square_cal 5
    ⟨square_cal, [⟨0, 0⟩, ⟨0, 0⟩, ⟨0, 0⟩, ⟨0, 0⟩], -1, [0, 1, 2, 3]⟩ = none := by
  rw [obb_loop, if_pos (by norm_num [square_cal]), square_step1,
    obb_loop, if_pos (by norm_num [square_cal]), square_step2,
    obb_loop, if_pos (by norm_num [square_cal]), square_step3,
    obb_loop, if_pos (by norm_num [square_cal]), square_step4,
    obb_loop, if_pos (by norm_num [square_cal]), square_step5]
  rfl

theorem square_loop_six : obb_loop square_hull square_cal 6
    ⟨square_cal, [⟨0, 0⟩, ⟨0, 0⟩, ⟨0, 0⟩, ⟨0, 0⟩], -1, [0, 1, 2, 3]⟩ =
    some ⟨[⟨0, 1⟩, ⟨-1, 0⟩, ⟨0, -1⟩, ⟨1, 0⟩], [⟨1, 0⟩, ⟨1, 1⟩, ⟨0, 1⟩, ⟨0, 0⟩], 1,
      [2, 2, 3, 0]⟩ := by
  rw [obb_loop, if_pos (by norm_num [square_cal]), square_step1,
    obb_loop, if_pos (by norm_num [square_cal]), square_step2,
    obb_loop, if_pos (by norm_num [square_cal]), square_step3,
    obb_loop, if_pos (by norm_num [square_cal]), square_step4,
    obb_loop, if_pos (by norm_num [square_cal]), square_step5,
    obb_loop, if_neg (by norm_num)]

theorem obb_loop_mono_some (hull hullcal : List point) :
    ∀ (f : ℕ) (st : OBBState) (r : OBBState), obb_loop hull hullcal f st = some r →
      ∀ g, f ≤ g → obb_loop hull hullcal g st = some r := by
  intro f
  induction f with
  | zero => intro st r h; simp [obb_loop] at h
  | succ f ih =>
    intro st r h g hg
    obtain ⟨g', rfl⟩ : ∃ g', g = g' + 1 := ⟨g - 1, by omega⟩
    rw [obb_loop] at h ⊢
    by_cases hguard : 0 < ((st.caliper.getD 0 ⟨0, 0⟩).x : ℚ)
    · rw [if_pos hguard] at h ⊢
      exact ih _ r h g' (by omega)
    · rw [if_neg hguard] at h ⊢
      exact h

theorem square_cal_map (sq : ℚ → ℚ) (hsq : sq 1 = 1) :
    (List.range square_hull.length).map (fun i =>
      vector_unit sq (vector_sub (square_hull.getD ((i + 1) % square_hull.length) ⟨0, 0⟩)
        (square_hull.getD i ⟨0, 0⟩))) = square_cal := by
  norm_num [square_hull, square_cal, vector_unit, vector_sub, vector_norm2, vector_dot,
    vector_div, List.range_succ, hsq]

theorem square_obb_run (sq : ℚ → ℚ) (hsq : sq 1 = 1) :
    points_oriented_bbox sq square_hull 5 = none ∧
    ∀ fuel, 6 ≤ fuel → points_oriented_bbox sq square_hull fuel =
      some [⟨1, 0⟩, ⟨1, 1⟩, ⟨0, 1⟩, ⟨0, 0⟩] := by
  have hrun : ∀ fuel, points_oriented_bbox sq square_hull fuel =
      (obb_loop square_hull square_cal fuel
        ⟨square_cal, [⟨0, 0⟩, ⟨0, 0⟩, ⟨0, 0⟩, ⟨0, 0⟩], -1, [0, 1, 2, 3]⟩).map
        OBBState.rect := by
    intro fuel
    show (obb_loop square_hull _ fuel _).map OBBState.rect = _
    rw [square_cal_map sq hsq, square_tangents]
    rfl
  constructor
  · rw [hrun, square_loop_five]
    rfl
  · intro fuel hf
    rw [hrun, obb_loop_mono_some square_hull square_cal 6 _ _ square_loop_six fuel hf]
    rfl

/-- Claim C6 (counterexample): the CCW axis-aligned unit square is a convex
hull in counter-clockwise order with `n = 4 ≥ 3` vertices (all four
consecutive triples have positive signed parallelogram area), every edge has
squared length `1` so the square-root instantiation `sqrt1` is exact on all
values the run consults — yet after `n + 1 = 5` loop iterations the run is
still going (`fuel = 5` returns `none`): the loop executes more than `n`
caliper-advance iterations. -/
theorem charade_C6_square_cx :
    square_hull.length = 4 ∧
    0 < points_par_area ⟨0, 0⟩ ⟨1, 0⟩ ⟨1, 1⟩ ∧
    0 < points_par_area ⟨1, 0⟩ ⟨1, 1⟩ ⟨0, 1⟩ ∧
    0 < points_par_area ⟨1, 1⟩ ⟨0, 1⟩ ⟨0, 0⟩ ∧
    0 < points_par_area ⟨0, 1⟩ ⟨0, 0⟩ ⟨1, 0⟩ ∧
    points_oriented_bbox sqrt1 square_hull 5 = none := by
  refine ⟨by norm_num [square_hull], ?_, ?_, ?_, ?_, ?_⟩
  · norm_num [points_par_area, vector_cross, vector_dot, vector_perp]
  · norm_num [points_par_area, vector_cross, vector_dot, vector_perp]
  · norm_num [points_par_area, vector_cross, vector_dot, vector_perp]
  · norm_num [points_par_area, vector_cross, vector_dot, vector_perp]
  · exact (square_obb_run sqrt1 rfl).1

/-- Claim C6 (amended): the rotating-calipers loop of
`points_oriented_bbox` does terminate on the specification's own CCW unit
square (its guard becomes false), but only after `n + 1 = 5`
caliper-advance iterations, one more than the hull's vertex count: `n` does
not bound the iteration count, because a caliper that starts exactly
aligned with a hull edge consumes an advance without rotating the frame.
For every square-root function that is exact on the unit edge lengths and
every fuel of at least `6`, the run completes with the unit square itself
as the minimal rectangle. -/
theorem charade_C6_square_amended (sq : ℚ → ℚ) (hsq : sq 1 = 1) (fuel : ℕ)
    (hfuel : 6 ≤ fuel) :
    points_oriented_bbox sq square_hull fuel = some [⟨1, 0⟩, ⟨1, 1⟩, ⟨0, 1⟩, ⟨0, 0⟩] ∧
    points_oriented_bbox sq square_hull (square_hull.length + 1) = none :=
  ⟨(square_obb_run sq hsq).2 fuel hfuel, (square_obb_run sq hsq).1⟩

/-- Witness for the amended C6 at `sq = sqrt1`, `fuel = 6`. -/
theorem charade_C6_square_amended_witness :
    points_oriented_bbox sqrt1 square_hull 6 = some [⟨1, 0⟩, ⟨1, 1⟩, ⟨0, 1⟩, ⟨0, 0⟩] ∧
    points_oriented_bbox sqrt1 square_hull (square_hull.length + 1) = none :=
  charade_C6_square_amended sqrt1 rfl 6 (by norm_num)

/-! ## Correctness of the enclosing-circle search (claim C1)

The proof parametrises disks through a fixed boundary point `p` by their
center `z`: the containment of a point `s` in such a disk is the *linear*
condition `hsep p s z ≤ 0` on `z`, so feasibility arguments become linear
algebra over ℚ — no minimality or compactness reasoning is needed for
containment. -/

/-- `hsep p s z ≤ 0` says the disk centered at `z` passing through `p`
contains `s`; it is affine in `z`. -/
def hsep (p s z : point) : ℚ :=
  2 * vector_dot (vector_sub p s) z + vector_norm2 s - vector_norm2 p

/-- The center `z` is equidistant from `p` and `q` (the perpendicular
bisector constraint satisfied by every circle through both). -/
def onbis (p q z : point) : Prop := point_distance2 z p = point_distance2 z q

theorem hsep_eq (p s z : point) :
    hsep p s z = point_distance2 z s - point_distance2 z p := by
  simp only [hsep, point_distance2, vector_norm2, vector_dot, vector_sub]
  ring

theorem hsep_self (p z : point) : hsep p p z = 0 := by
  simp only [hsep, vector_dot, vector_sub, vector_norm2]
  ring

theorem onbis_iff_hsep (p q z : point) : onbis p q z ↔ hsep p q z = 0 := by
  rw [onbis, hsep_eq, sub_eq_zero, eq_comm]

theorem point_distance2_comm (a b : point) : point_distance2 a b = point_distance2 b a := by
  simp only [point_distance2, vector_norm2, vector_dot, vector_sub]
  ring

theorem point_distance2_nonneg (a b : point) : 0 ≤ point_distance2 a b := by
  simp only [point_distance2, vector_norm2, vector_dot, vector_sub]
  nlinarith [mul_self_nonneg (b.x - a.x), mul_self_nonneg (b.y - a.y)]

theorem point_distance2_eq_zero (a b : point) : point_distance2 a b = 0 ↔ b = a := by
  simp only [point_distance2, vector_norm2, vector_dot, vector_sub]
  constructor
  · intro h
    have hx : b.x - a.x = 0 := by nlinarith [sq_nonneg (b.x - a.x), sq_nonneg (b.y - a.y)]
    have hy : b.y - a.y = 0 := by nlinarith [sq_nonneg (b.x - a.x), sq_nonneg (b.y - a.y)]
    cases a; cases b
    simp only [point.mk.injEq]
    constructor <;> [linarith; linarith]
  · rintro rfl
    ring

theorem vector_norm2_sub_pos (p q : point) (hpq : p ≠ q) :
    0 < vector_norm2 (vector_sub q p) := by
  rcases lt_or_eq_of_le (point_distance2_nonneg p q) with h | h
  · simpa [point_distance2] using h
  · exact absurd ((point_distance2_eq_zero p q).mp h.symm) (Ne.symm hpq)

/-- The two-dimensional Lagrange identity. -/
theorem lagrange (a v w : point) :
    vector_norm2 a * vector_dot v w =
      vector_dot a v * vector_dot a w + vector_cross a v * vector_cross a w := by
  simp only [vector_norm2, vector_dot, vector_cross, vector_perp]
  ring

/-- `cross(q - p, s - p)` is the parallelogram sum used by the circumcircle
determinant: the side classification of the scan and the degeneracy test
agree. -/
theorem cross_sub_eq_par (p q s : point) :
    vector_cross (vector_sub q p) (vector_sub s p) =
      vector_cross p q + vector_cross q s + vector_cross s p := by
  simp only [vector_cross, vector_dot, vector_perp, vector_sub]
  ring

/-- How `hsep` changes between two centers on the bisector of `p q`: the
change is proportional to the candidate point's side of the line `p → q`
times the signed center offsets. -/
theorem hsep_transfer (p q s z z' : point) (hz : onbis p q z) (hz' : onbis p q z') :
    vector_norm2 (vector_sub q p) * (hsep p s z - hsep p s z') =
      -2 * vector_cross (vector_sub q p) (vector_sub s p) * (tau p q z - tau p q z') := by
  have h1 := hz
  have h2 := hz'
  simp only [onbis, point_distance2, vector_norm2, vector_dot, vector_sub] at h1 h2
  have hdot : (q.x - p.x) * (z.x - z'.x) + (q.y - p.y) * (z.y - z'.y) = 0 := by
    linear_combination (h1 - h2) / 2
  simp only [hsep, tau, vector_cross, vector_dot, vector_perp, vector_sub, vector_norm2]
  linear_combination
    (2 * ((q.x - p.x) * (p.x - s.x) + (q.y - p.y) * (p.y - s.y))) * hdot

theorem hsep_affine (p s z0 z1 : point) (t : ℚ) :
    hsep p s (vector_add z0 (vector_mul (vector_sub z1 z0) t)) =
      (1 - t) * hsep p s z0 + t * hsep p s z1 := by
  simp only [hsep, vector_add, vector_mul, vector_sub, vector_dot, vector_norm2]
  ring

theorem hsep_ray (p s z0 : point) (t : ℚ) :
    hsep p s (vector_add p (vector_mul (vector_sub z0 p) t)) =
      point_distance2 p s - 2 * t * vector_dot (vector_sub s p) (vector_sub z0 p) := by
  simp only [hsep, vector_add, vector_mul, vector_sub, vector_dot, vector_norm2,
    point_distance2]
  ring

/-- The computed circumcenter really lies on the perpendicular bisectors of
`p q` and of `p r` whenever the determinant is non-zero, and therefore is
equidistant from the three input points. -/
theorem hsep_div_center (p s : point) (nx ny d : ℚ) (hd : d ≠ 0) :
    hsep p s ⟨nx / d, ny / d⟩ =
      (2 * ((p.x - s.x) * nx + (p.y - s.y) * ny) +
        d * (vector_norm2 s - vector_norm2 p)) / d := by
  simp only [hsep, vector_dot, vector_sub, vector_norm2]
  field_simp
  ring

theorem circumscribe_equidistant (p q r : point)
    (hd : (vector_cross p q + vector_cross q r + vector_cross r p) * 2 ≠ 0) :
    point_distance2 (circle_circumscribe p q r).c p = (circle_circumscribe p q r).r2 ∧
    point_distance2 (circle_circumscribe p q r).c q = (circle_circumscribe p q r).r2 ∧
    point_distance2 (circle_circumscribe p q r).c r = (circle_circumscribe p q r).r2 := by
  have hbq : onbis p q (circle_circumscribe p q r).c := by
    rw [onbis_iff_hsep]
    rw [circle_circumscribe, if_neg hd]
    rw [show (⟨⟨(vector_dot p p * (q.y - r.y) + vector_dot q q * (r.y - p.y) +
        vector_dot r r * (p.y - q.y)) / ((vector_cross p q + vector_cross q r +
          vector_cross r p) * 2),
        (vector_dot p p * (r.x - q.x) + vector_dot q q * (p.x - r.x) +
          vector_dot r r * (q.x - p.x)) / ((vector_cross p q + vector_cross q r +
            vector_cross r p) * 2)⟩,
        point_distance2 p ⟨(vector_dot p p * (q.y - r.y) + vector_dot q q * (r.y - p.y) +
          vector_dot r r * (p.y - q.y)) / ((vector_cross p q + vector_cross q r +
            vector_cross r p) * 2),
        (vector_dot p p * (r.x - q.x) + vector_dot q q * (p.x - r.x) +
          vector_dot r r * (q.x - p.x)) / ((vector_cross p q + vector_cross q r +
            vector_cross r p) * 2)⟩⟩ : circle).c = ⟨(vector_dot p p * (q.y - r.y) +
      vector_dot q q * (r.y - p.y) + vector_dot r r * (p.y - q.y)) /
        ((vector_cross p q + vector_cross q r + vector_cross r p) * 2),
      (vector_dot p p * (r.x - q.x) + vector_dot q q * (p.x - r.x) +
        vector_dot r r * (q.x - p.x)) / ((vector_cross p q + vector_cross q r +
          vector_cross r p) * 2)⟩ from rfl]
    rw [hsep_div_center p q _ _ _ hd]
    rw [div_eq_zero_iff]
    left
    simp only [vector_dot, vector_cross, vector_perp, vector_norm2]
    ring
  have hbr : onbis p r (circle_circumscribe p q r).c := by
    rw [onbis_iff_hsep]
    rw [circle_circumscribe, if_neg hd]
    rw [show (⟨⟨(vector_dot p p * (q.y - r.y) + vector_dot q q * (r.y - p.y) +
        vector_dot r r * (p.y - q.y)) / ((vector_cross p q + vector_cross q r +
          vector_cross r p) * 2),
        (vector_dot p p * (r.x - q.x) + vector_dot q q * (p.x - r.x) +
          vector_dot r r * (q.x - p.x)) / ((vector_cross p q + vector_cross q r +
            vector_cross r p) * 2)⟩,
        point_distance2 p ⟨(vector_dot p p * (q.y - r.y) + vector_dot q q * (r.y - p.y) +
          vector_dot r r * (p.y - q.y)) / ((vector_cross p q + vector_cross q r +
            vector_cross r p) * 2),
        (vector_dot p p * (r.x - q.x) + vector_dot q q * (p.x - r.x) +
          vector_dot r r * (q.x - p.x)) / ((vector_cross p q + vector_cross q r +
            vector_cross r p) * 2)⟩⟩ : circle).c = ⟨(vector_dot p p * (q.y - r.y) +
      vector_dot q q * (r.y - p.y) + vector_dot r r * (p.y - q.y)) /
        ((vector_cross p q + vector_cross q r + vector_cross r p) * 2),
      (vector_dot p p * (r.x - q.x) + vector_dot q q * (p.x - r.x) +
        vector_dot r r * (q.x - p.x)) / ((vector_cross p q + vector_cross q r +
          vector_cross r p) * 2)⟩ from rfl]
    rw [hsep_div_center p r _ _ _ hd]
    rw [div_eq_zero_iff]
    left
    simp only [vector_dot, vector_cross, vector_perp, vector_norm2]
    ring
  have hr2 : (circle_circumscribe p q r).r2 =
      point_distance2 (circle_circumscribe p q r).c p := by
    rw [circle_circumscribe, if_neg hd]
    exact point_distance2_comm _ _
  exact ⟨hr2.symm, by rw [hr2, ← hbq], by rw [hr2, ← hbr]⟩

theorem circumscribe_r2_eq_zero_iff (p q r : point) :
    (circle_circumscribe p q r).r2 = 0 ↔
      vector_cross p q + vector_cross q r + vector_cross r p = 0 := by
  constructor
  · intro h0
    by_contra hd0
    have hd : (vector_cross p q + vector_cross q r + vector_cross r p) * 2 ≠ 0 := by
      intro h
      exact hd0 (by linarith [h])
    obtain ⟨hp, hq, _⟩ := circumscribe_equidistant p q r hd
    rw [h0] at hp hq
    have hpe : p = (circle_circumscribe p q r).c := (point_distance2_eq_zero _ _).mp hp
    have hqe : q = (circle_circumscribe p q r).c := (point_distance2_eq_zero _ _).mp hq
    have hqp : q = p := hqe.trans hpe.symm
    apply hd0
    rw [hqp]
    simp only [vector_cross, vector_dot, vector_perp]
    ring
  · intro h
    rw [circle_circumscribe, if_pos (by rw [h]; ring)]

/-- A valid circumcircle passes through `p` in the `r2`-as-squared-radius
sense, with center on the bisector of `p q`, and the point `r` sits exactly
on it. -/
theorem circumscribe_valid_facts (p q r : point)
    (hv : (circle_circumscribe p q r).r2 ≠ 0) :
    point_distance2 (circle_circumscribe p q r).c p = (circle_circumscribe p q r).r2 ∧
    onbis p q (circle_circumscribe p q r).c ∧
    hsep p r (circle_circumscribe p q r).c = 0 ∧
    0 < (circle_circumscribe p q r).r2 := by
  have hd : (vector_cross p q + vector_cross q r + vector_cross r p) * 2 ≠ 0 := by
    intro h
    have : vector_cross p q + vector_cross q r + vector_cross r p = 0 := by linarith [h]
    exact hv ((circumscribe_r2_eq_zero_iff p q r).mpr this)
  obtain ⟨hp, hq, hr⟩ := circumscribe_equidistant p q r hd
  refine ⟨hp, ?_, ?_, ?_⟩
  · rw [onbis, hp, hq]
  · rw [hsep_eq, hr, hp]
    ring
  · rcases lt_or_eq_of_le (le_of_le_of_eq (point_distance2_nonneg _ p) hp) with h | h
    · exact h
    · exact absurd h.symm hv

theorem contains_of_hsep (c : circle) (p s : point)
    (hthrough : point_distance2 c.c p = c.r2) (h : hsep p s c.c ≤ 0) :
    circle_contains c s := by
  rw [circle_contains, ← hthrough]
  have := hsep_eq p s c.c
  linarith

theorem diameter_through_p (p q : point) :
    point_distance2 (circle_from_diameter p q).c p = (circle_from_diameter p q).r2 := rfl

theorem diameter_through_q (p q : point) :
    point_distance2 (circle_from_diameter p q).c q = (circle_from_diameter p q).r2 := by
  simp only [circle_from_diameter, point_distance2, vector_norm2, vector_dot, vector_sub]
  ring

theorem diameter_onbis (p q : point) : onbis p q (circle_from_diameter p q).c := by
  rw [onbis, diameter_through_p, diameter_through_q]

theorem diameter_r2_pos (p q : point) (hpq : p ≠ q) :
    0 < (circle_from_diameter p q).r2 := by
  have hq : (circle_from_diameter p q).r2 = vector_norm2 (vector_sub q p) / 4 := by
    simp only [circle_from_diameter, point_distance2, vector_norm2, vector_dot, vector_sub]
    ring
  rw [hq]
  have := vector_norm2_sub_pos p q hpq
  linarith

/-- Containment soundness of `circle_2points`: whenever some circle through
both `p` and `q` contains all the processed points (a feasible bisector
center `z` exists), the circle the code returns passes through `p` and `q`,
contains every processed point, and has positive squared radius.
No minimality reasoning is needed: the per-side extremal candidates the
scan keeps always land inside the feasible interval of center offsets. -/
theorem circle_2points_sound (pre : List point) (p q : point) (hpq : p ≠ q)
    (z : point) (hzb : onbis p q z) (hzc : ∀ s ∈ pre, hsep p s z ≤ 0) :
    (∀ s ∈ pre, circle_contains (circle_2points pre p q) s) ∧
    point_distance2 (circle_2points pre p q).c p = (circle_2points pre p q).r2 ∧
    point_distance2 (circle_2points pre p q).c q = (circle_2points pre p q).r2 ∧
    0 < (circle_2points pre p q).r2 := by
  have hA : 0 < vector_norm2 (vector_sub q p) := vector_norm2_sub_pos p q hpq
  by_cases hall : circle_contains_all (circle_from_diameter p q) pre
  · have hres : circle_2points pre p q = circle_from_diameter p q := by
      unfold circle_2points
      rw [if_pos hall]
    rw [hres]
    exact ⟨hall, diameter_through_p p q, diameter_through_q p q, diameter_r2_pos p q hpq⟩
  · have hres : circle_2points pre p q =
        (if (circle_2points_scan pre p q).2.r2 = 0 then (circle_2points_scan pre p q).1
         else if (circle_2points_scan pre p q).1.r2 = 0 then (circle_2points_scan pre p q).2
         else if (circle_2points_scan pre p q).1.r2 ≤ (circle_2points_scan pre p q).2.r2 then
           (circle_2points_scan pre p q).1
         else (circle_2points_scan pre p q).2) := by
      unfold circle_2points
      rw [if_neg hall]
    obtain ⟨i10, i11, i20, i21⟩ := circle_2points_scan_spec pre p q
    have hout : ∃ s0 ∈ pre, ¬ circle_contains (circle_from_diameter p q) s0 := by
      by_contra h
      push_neg at h
      exact hall h
    obtain ⟨s0, hs0mem, hs0out⟩ := hout
    have hs0sep : 0 < hsep p s0 (circle_from_diameter p q).c := by
      rw [circle_contains, not_le, ← diameter_through_p p q] at hs0out
      have := hsep_eq p s0 (circle_from_diameter p q).c
      linarith
    have hvalid : ∀ s : point, vector_cross (vector_sub q p) (vector_sub s p) ≠ 0 →
        (circle_circumscribe p q s).r2 ≠ 0 := by
      intro s hc h0
      exact hc (by rw [cross_sub_eq_par]; exact (circumscribe_r2_eq_zero_iff p q s).mp h0)
    have hzero : ∀ s ∈ pre, vector_cross (vector_sub q p) (vector_sub s p) = 0 →
        ∀ z2 : point, onbis p q z2 → hsep p s z2 ≤ 0 := by
      intro s hs hc z2 hz2
      have ht := hsep_transfer p q s z2 z hz2 hzb
      rw [hc] at ht
      have hd0 : hsep p s z2 - hsep p s z = 0 := by
        rcases mul_eq_zero.mp (by linarith [ht] :
            vector_norm2 (vector_sub q p) * (hsep p s z2 - hsep p s z) = 0) with h | h
        · exact absurd h (ne_of_gt hA)
        · exact h
      linarith [hzc s hs]
    have htau_left : ∀ s ∈ pre, 0 < vector_cross (vector_sub q p) (vector_sub s p) →
        tau p q (circle_circumscribe p q s).c ≤ tau p q z := by
      intro s hs hc
      obtain ⟨_, hbs, hons, _⟩ := circumscribe_valid_facts p q s (hvalid s (ne_of_gt hc))
      have ht := hsep_transfer p q s z (circle_circumscribe p q s).c hzb hbs
      rw [hons, sub_zero] at ht
      nlinarith [hzc s hs, hA, hc, ht]
    have htau_right : ∀ s ∈ pre, vector_cross (vector_sub q p) (vector_sub s p) < 0 →
        tau p q z ≤ tau p q (circle_circumscribe p q s).c := by
      intro s hs hc
      obtain ⟨_, hbs, hons, _⟩ := circumscribe_valid_facts p q s (hvalid s (ne_of_lt hc))
      have ht := hsep_transfer p q s z (circle_circumscribe p q s).c hzb hbs
      rw [hons, sub_zero] at ht
      nlinarith [hzc s hs, hA, hc, ht]
    have hcontain_left : ∀ s ∈ pre, 0 < vector_cross (vector_sub q p) (vector_sub s p) →
        ∀ z2 : point, onbis p q z2 → tau p q (circle_circumscribe p q s).c ≤ tau p q z2 →
        hsep p s z2 ≤ 0 := by
      intro s hs hc z2 hz2 hτ
      obtain ⟨_, hbs, hons, _⟩ := circumscribe_valid_facts p q s (hvalid s (ne_of_gt hc))
      have ht := hsep_transfer p q s z2 (circle_circumscribe p q s).c hz2 hbs
      rw [hons, sub_zero] at ht
      nlinarith [hA, hc, ht, hτ]
    have hcontain_right : ∀ s ∈ pre, vector_cross (vector_sub q p) (vector_sub s p) < 0 →
        ∀ z2 : point, onbis p q z2 → tau p q z2 ≤ tau p q (circle_circumscribe p q s).c →
        hsep p s z2 ≤ 0 := by
      intro s hs hc z2 hz2 hτ
      obtain ⟨_, hbs, hons, _⟩ := circumscribe_valid_facts p q s (hvalid s (ne_of_lt hc))
      have ht := hsep_transfer p q s z2 (circle_circumscribe p q s).c hz2 hbs
      rw [hons, sub_zero] at ht
      nlinarith [hA, hc, ht, hτ]
    have hnz : ¬((circle_2points_scan pre p q).1.r2 = 0 ∧
        (circle_2points_scan pre p q).2.r2 = 0) := by
      rintro ⟨h1, h2⟩
      have hc0 : vector_cross (vector_sub q p) (vector_sub s0 p) = 0 := by
        rcases lt_trichotomy (vector_cross (vector_sub q p) (vector_sub s0 p)) 0 with h | h | h
        · exact absurd (i20 h2 s0 hs0mem h) (hvalid s0 (ne_of_lt h))
        · exact h
        · exact absurd (i10 h1 s0 hs0mem h) (hvalid s0 (ne_of_gt h))
      have := hzero s0 hs0mem hc0 (circle_from_diameter p q).c (diameter_onbis p q)
      linarith [hs0sep]
    have hcase1 : (circle_2points_scan pre p q).1.r2 ≠ 0 →
        (∀ s ∈ pre, circle_contains (circle_2points_scan pre p q).1 s) ∧
        point_distance2 (circle_2points_scan pre p q).1.c p =
          (circle_2points_scan pre p q).1.r2 ∧
        point_distance2 (circle_2points_scan pre p q).1.c q =
          (circle_2points_scan pre p q).1.r2 ∧
        0 < (circle_2points_scan pre p q).1.r2 := by
      intro h1
      obtain ⟨⟨rs, hrsmem, hrsc, hrsv, hrseq⟩, hmax⟩ := i11 h1
      obtain ⟨hthr, hby, _, hpos⟩ := circumscribe_valid_facts p q rs hrsv
      rw [hrseq]
      have hbs1 : onbis p q (circle_circumscribe p q rs).c := hby
      have hthr2 : point_distance2 (circle_circumscribe p q rs).c q =
          (circle_circumscribe p q rs).r2 := by
        rw [← hbs1]
        exact hthr
      refine ⟨?_, hthr, hthr2, hpos⟩
      intro s hs
      apply contains_of_hsep _ p s hthr
      rcases lt_trichotomy (vector_cross (vector_sub q p) (vector_sub s p)) 0 with h | h | h
      · -- s on the negative side: the kept left candidate sits below the
        -- feasible offset, which sits below every right circumcircle offset
        refine hcontain_right s hs h _ hbs1 ?_
        calc tau p q (circle_circumscribe p q rs).c ≤ tau p q z := by
              rw [← hrseq]
              rw [hrseq]
              exact htau_left rs hrsmem hrsc
          _ ≤ tau p q (circle_circumscribe p q s).c := htau_right s hs h
      · exact hzero s hs h _ hbs1
      · refine hcontain_left s hs h _ hbs1 ?_
        rw [← hrseq]
        exact hmax s hs h (hvalid s (ne_of_gt h))
    have hcase2 : (circle_2points_scan pre p q).2.r2 ≠ 0 →
        (∀ s ∈ pre, circle_contains (circle_2points_scan pre p q).2 s) ∧
        point_distance2 (circle_2points_scan pre p q).2.c p =
          (circle_2points_scan pre p q).2.r2 ∧
        point_distance2 (circle_2points_scan pre p q).2.c q =
          (circle_2points_scan pre p q).2.r2 ∧
        0 < (circle_2points_scan pre p q).2.r2 := by
      intro h2
      obtain ⟨⟨rs, hrsmem, hrsc, hrsv, hrseq⟩, hmin⟩ := i21 h2
      obtain ⟨hthr, hby, _, hpos⟩ := circumscribe_valid_facts p q rs hrsv
      rw [hrseq]
      have hbs2 : onbis p q (circle_circumscribe p q rs).c := hby
      have hthr2 : point_distance2 (circle_circumscribe p q rs).c q =
          (circle_circumscribe p q rs).r2 := by
        rw [← hbs2]
        exact hthr
      refine ⟨?_, hthr, hthr2, hpos⟩
      intro s hs
      apply contains_of_hsep _ p s hthr
      rcases lt_trichotomy (vector_cross (vector_sub q p) (vector_sub s p)) 0 with h | h | h
      · refine hcontain_right s hs h _ hbs2 ?_
        rw [← hrseq]
        exact hmin s hs h (hvalid s (ne_of_lt h))
      · exact hzero s hs h _ hbs2
      · refine hcontain_left s hs h _ hbs2 ?_
        calc tau p q (circle_circumscribe p q s).c ≤ tau p q z := htau_left s hs h
          _ ≤ tau p q (circle_circumscribe p q rs).c := htau_right rs hrsmem hrsc
    rw [hres]
    by_cases h2z : (circle_2points_scan pre p q).2.r2 = 0
    · rw [if_pos h2z]
      exact hcase1 (fun h1z => hnz ⟨h1z, h2z⟩)
    · rw [if_neg h2z]
      by_cases h1z : (circle_2points_scan pre p q).1.r2 = 0
      · rw [if_pos h1z]
        exact hcase2 h2z
      · rw [if_neg h1z]
        by_cases hle : (circle_2points_scan pre p q).1.r2 ≤ (circle_2points_scan pre p q).2.r2
        · rw [if_pos hle]
          exact hcase1 h1z
        · rw [if_neg hle]
          exact hcase2 h2z

/-- Interpolation: between a through-`p` disk that contains `S` but not `q`
and one that contains `S` and `q`, some disk through both `p` and `q`
contains `S`.  All the constraints are affine in the center, so the right
convex combination of the two centers works. -/
theorem exists_onbis_feasible (p q z0 z1 : point) (S : List point)
    (hq0 : 0 < hsep p q z0) (hq1 : hsep p q z1 ≤ 0)
    (hS0 : ∀ s ∈ S, hsep p s z0 ≤ 0) (hS1 : ∀ s ∈ S, hsep p s z1 ≤ 0) :
    ∃ z : point, onbis p q z ∧ ∀ s ∈ S, hsep p s z ≤ 0 := by
  have hden : 0 < hsep p q z0 - hsep p q z1 := by linarith
  refine ⟨vector_add z0 (vector_mul (vector_sub z1 z0)
    (hsep p q z0 / (hsep p q z0 - hsep p q z1))), ?_, ?_⟩
  · rw [onbis_iff_hsep, hsep_affine]
    field_simp
    ring
  · intro s hs
    rw [hsep_affine]
    have ht0 : 0 ≤ hsep p q z0 / (hsep p q z0 - hsep p q z1) :=
      div_nonneg (le_of_lt hq0) (le_of_lt hden)
    have ht1 : hsep p q z0 / (hsep p q z0 - hsep p q z1) ≤ 1 := by
      rw [div_le_one hden]
      linarith
    nlinarith [hS0 s hs, hS1 s hs, ht0, ht1]

theorem exists_common_ray_t (S : List point) (B D : point → ℚ)
    (hD : ∀ s ∈ S, 0 < D s) :
    ∃ t : ℚ, ∀ s ∈ S, B s - 2 * t * D s ≤ 0 := by
  induction S with
  | nil => exact ⟨0, fun s hs => absurd hs (List.not_mem_nil s)⟩
  | cons a tl ih =>
    obtain ⟨t1, ht1⟩ := ih (fun s hs => hD s (List.mem_cons_of_mem a hs))
    have hDa : 0 < D a := hD a (List.mem_cons_self ..)
    refine ⟨max t1 (B a / (2 * D a)), ?_⟩
    intro s hs
    rcases List.mem_cons.mp hs with rfl | hs'
    · have h1 : B s / (2 * D s) ≤ max t1 (B s / (2 * D s)) := le_max_right _ _
      have h2 : B s = (B s / (2 * D s)) * (2 * D s) := by
        field_simp
      nlinarith [h1, hDa]
    · have h1 : t1 ≤ max t1 (B a / (2 * D a)) := le_max_left _ _
      have h2 := ht1 s hs'
      nlinarith [hD s (List.mem_cons_of_mem a hs'), h1]

/-- Separation: if a disk contains `S` and `p` lies strictly outside it,
then some disk *through* `p` contains `S` (push the center far away from
`p` along the ray through the old center). -/
theorem exists_through_disk (S : List point) (z0 : point) (r2 : ℚ) (p : point)
    (hS : ∀ s ∈ S, point_distance2 z0 s ≤ r2) (hp : r2 < point_distance2 z0 p) :
    ∃ z : point, ∀ s ∈ S, hsep p s z ≤ 0 := by
  have hDpos : ∀ s ∈ S, 0 < vector_dot (vector_sub s p) (vector_sub z0 p) := by
    intro s hs
    have hkey : vector_norm2 (vector_sub s z0) * vector_norm2 (vector_sub p z0) =
        (vector_dot (vector_sub s z0) (vector_sub p z0)) ^ 2 +
        (vector_cross (vector_sub s z0) (vector_sub p z0)) ^ 2 := by
      simp only [vector_norm2, vector_dot, vector_cross, vector_perp, vector_sub]
      ring
    have hsplit : vector_dot (vector_sub s p) (vector_sub z0 p) =
        vector_norm2 (vector_sub p z0) -
          vector_dot (vector_sub s z0) (vector_sub p z0) := by
      simp only [vector_norm2, vector_dot, vector_sub]
      ring
    have hs' : vector_norm2 (vector_sub s z0) ≤ r2 := hS s hs
    have hp' : r2 < vector_norm2 (vector_sub p z0) := hp
    have hs0 : 0 ≤ vector_norm2 (vector_sub s z0) := by
      have := point_distance2_nonneg z0 s
      simpa [point_distance2] using this
    rw [hsplit]
    nlinarith [hkey, sq_nonneg (vector_cross (vector_sub s z0) (vector_sub p z0)),
      sq_nonneg (vector_dot (vector_sub s z0) (vector_sub p z0))]
  obtain ⟨t, ht⟩ := exists_common_ray_t S (fun s => point_distance2 p s)
    (fun s => vector_dot (vector_sub s p) (vector_sub z0 p)) hDpos
  refine ⟨vector_add p (vector_mul (vector_sub z0 p) t), ?_⟩
  intro s hs
  rw [hsep_ray]
  exact ht s hs

/-- Invariant preservation through the `circle_1point` loop: provided some
disk through `p` contains everything the loop will ever look at, the
running circle always passes through `p`, contains all points processed so
far, and is the degenerate `(p, 0)` circle only while every processed point
equals `p`. -/
theorem circle_1point_aux_sound (p zbig : point) :
    ∀ (rest done : List point) (c : circle),
      (∀ s ∈ done ++ rest, hsep p s zbig ≤ 0) →
      point_distance2 c.c p = c.r2 →
      (∀ s ∈ done, circle_contains c s) →
      (c.r2 = 0 → c.c = p) →
      point_distance2 (circle_1point_aux p done rest c).c p =
        (circle_1point_aux p done rest c).r2 ∧
      (∀ s ∈ done ++ rest, circle_contains (circle_1point_aux p done rest c) s) ∧
      ((circle_1point_aux p done rest c).r2 = 0 →
        (circle_1point_aux p done rest c).c = p) := by
  intro rest
  induction rest with
  | nil =>
    intro done c hbig hth hcont hz
    rw [circle_1point_aux]
    exact ⟨hth, by simpa using hcont, hz⟩
  | cons q rs ih =>
    intro done c hbig hth hcont hz
    rw [circle_1point_aux]
    have hbig' : ∀ s ∈ (done ++ [q]) ++ rs, hsep p s zbig ≤ 0 := by
      intro s hs
      exact hbig s (by simpa using hs)
    have hreassoc : (done ++ [q]) ++ rs = done ++ q :: rs := by simp
    by_cases hcq : circle_contains c q
    · rw [if_pos hcq]
      have := ih (done ++ [q]) c hbig' hth (by
        intro s hs
        rcases List.mem_append.mp hs with hs | hs
        · exact hcont s hs
        · rw [List.mem_singleton.mp hs]; exact hcq) hz
      rwa [hreassoc] at this
    · rw [if_neg hcq]
      by_cases hr0 : c.r2 = 0
      · rw [if_pos hr0]
        have hcp : c.c = p := hz hr0
        have hqp : p ≠ q := by
          intro h
          apply hcq
          rw [circle_contains, ← h, hcp]
          rw [show point_distance2 p p = 0 from (point_distance2_eq_zero p p).mpr rfl]
          rw [hcp] at hth
          linarith [hth, point_distance2_nonneg p p]
        have hdone_eq : ∀ s ∈ done, s = p := by
          intro s hs
          have h1 := hcont s hs
          rw [circle_contains, hr0, hcp] at h1
          exact (point_distance2_eq_zero p s).mp
            (le_antisymm h1 (point_distance2_nonneg p s))
        have := ih (done ++ [q]) (circle_from_diameter p q) hbig'
          (diameter_through_p p q) (by
            intro s hs
            rcases List.mem_append.mp hs with hs | hs
            · rw [hdone_eq s hs]
              rw [circle_contains, diameter_through_p p q]
            · rw [List.mem_singleton.mp hs]
              rw [circle_contains, diameter_through_q p q])
          (fun h0 => absurd h0 (ne_of_gt (diameter_r2_pos p q hqp)))
        rwa [hreassoc] at this
      · rw [if_neg hr0]
        have hqp : p ≠ q := by
          intro h
          apply hcq
          rw [circle_contains, ← h, hth]
        have hq0 : 0 < hsep p q c.c := by
          rw [circle_contains, not_le] at hcq
          have := hsep_eq p q c.c
          linarith [hth]
        have hS0 : ∀ s ∈ done, hsep p s c.c ≤ 0 := by
          intro s hs
          have h1 := hcont s hs
          rw [circle_contains] at h1
          have := hsep_eq p s c.c
          linarith [hth]
        obtain ⟨zf, hzfb, hzfc⟩ := exists_onbis_feasible p q c.c zbig done hq0
          (hbig q (by simp)) hS0
          (fun s hs => hbig s (List.mem_append_left _ hs))
        obtain ⟨hc2c, hc2p, hc2q, hc2pos⟩ := circle_2points_sound done p q hqp zf hzfb hzfc
        have := ih (done ++ [q]) (circle_2points done p q) hbig' hc2p (by
          intro s hs
          rcases List.mem_append.mp hs with hs | hs
          · exact hc2c s hs
          · rw [List.mem_singleton.mp hs]
            rw [circle_contains, hc2q])
          (fun h0 => absurd h0 (ne_of_gt hc2pos))
        rwa [hreassoc] at this

theorem circle_1point_sound (pts : List point) (p : point)
    (hbig : ∃ z : point, ∀ s ∈ pts, hsep p s z ≤ 0) :
    point_distance2 (circle_1point pts p).c p = (circle_1point pts p).r2 ∧
    (∀ s ∈ pts, circle_contains (circle_1point pts p) s) ∧
    ((circle_1point pts p).r2 = 0 → (circle_1point pts p).c = p) := by
  obtain ⟨zbig, hzb⟩ := hbig
  have := circle_1point_aux_sound p zbig pts [] ⟨p, 0⟩ (by simpa using hzb)
    ((point_distance2_eq_zero p p).mpr rfl) (fun s hs => absurd hs (List.not_mem_nil s))
    (fun _ => rfl)
  simpa [circle_1point] using this

/-- Invariant preservation through the outer incremental loop. -/
theorem points_enclosing_aux_sound :
    ∀ (rest done : List point) (c : circle),
      (∀ s ∈ done, circle_contains c s) → 0 ≤ c.r2 →
      (∀ s ∈ done ++ rest, circle_contains (points_enclosing_aux done rest c) s) ∧
      0 ≤ (points_enclosing_aux done rest c).r2 := by
  intro rest
  induction rest with
  | nil =>
    intro done c hcont hr
    rw [points_enclosing_aux]
    exact ⟨by simpa using hcont, hr⟩
  | cons q rs ih =>
    intro done c hcont hr
    rw [points_enclosing_aux]
    have hreassoc : (done ++ [q]) ++ rs = done ++ q :: rs := by simp
    by_cases hcq : circle_contains c q
    · rw [if_pos hcq]
      have := ih (done ++ [q]) c (by
        intro s hs
        rcases List.mem_append.mp hs with hs | hs
        · exact hcont s hs
        · rw [List.mem_singleton.mp hs]; exact hcq) hr
      rwa [hreassoc] at this
    · rw [if_neg hcq]
      have hout : c.r2 < point_distance2 c.c q := by
        rw [circle_contains, not_le] at hcq
        exact hcq
      have hbig : ∃ z : point, ∀ s ∈ done, hsep q s z ≤ 0 :=
        exists_through_disk done c.c c.r2 q
          (fun s hs => hcont s hs) hout
      obtain ⟨hth, hcall, _⟩ := circle_1point_sound done q hbig
      have := ih (done ++ [q]) (circle_1point done q) (by
        intro s hs
        rcases List.mem_append.mp hs with hs | hs
        · exact hcall s hs
        · rw [List.mem_singleton.mp hs]
          rw [circle_contains, hth])
        (hth ▸ point_distance2_nonneg (circle_1point done q).c q)
      rwa [hreassoc] at this

/-- Claim C1: for every non-empty point set, the enclosing-circle
computation returns a circle containing every input point — each point's
squared distance to the returned center is at most the internal squared
radius, with zero tolerance in exact arithmetic — and
`points_enclosing_center` returns exactly that circle's center. -/
theorem charade_C1_enclosing_contains (pts : List point) (hne : pts ≠ []) :
    (∀ s ∈ pts, point_distance2 (points_enclosing_circle pts).c s ≤
      (points_enclosing_circle pts).r2) ∧
    points_enclosing_center pts = (points_enclosing_circle pts).c := by
  refine ⟨?_, rfl⟩
  match pts with
  | [] => exact absurd rfl hne
  | p :: rest =>
    have hc0 := circle_1point_sound [p] p ⟨p, by
      intro s hs
      rw [List.mem_singleton.mp hs, hsep_self]⟩
    obtain ⟨hth0, hcont0, _⟩ := hc0
    have := points_enclosing_aux_sound rest [p] (circle_1point [p] p) hcont0
      (hth0 ▸ point_distance2_nonneg (circle_1point [p] p).c p)
    intro s hs
    exact (this.1 s (by simpa using hs))

/-- Witness for C1 on the two-point set `{(0,0), (2,0)}`. -/
theorem charade_C1_enclosing_contains_witness :
    point_distance2 (points_enclosing_circle [⟨0, 0⟩, ⟨2, 0⟩]).c ⟨2, 0⟩ ≤
      (points_enclosing_circle [⟨0, 0⟩, ⟨2, 0⟩]).r2 :=
  (charade_C1_enclosing_contains [⟨0, 0⟩, ⟨2, 0⟩] (by simp)).1 ⟨2, 0⟩ (by simp)

end Charade
